import Mathlib

/-!
Verification of the boolean truth-table compiler in `table.py`.

The development shallowly embeds the compiler: the lexer (`Compiler._tokenize`),
the instruction splitter (`Compiler._split_instructions`), the grammar validator
(`Compiler._check_instructions` and `check_valid_recursively`), the expression
tree builder (`build_tree_recursively`), the evaluator (`Node.eval`) and the
truth-table driver (`Compiler._show`, `Compiler._execute_instructions`,
`Compiler.compile`).

Python exceptions are modelled with `Except` / an error enumeration `Err`;
printing is modelled by returning the list of printed lines together with an
optional error (the lines printed before the exception was raised).
Recursive scans that are not structural in Python (the validator and the tree
builder recurse into parenthesised slices) are embedded with an explicit fuel
argument that strictly decreases on every recursive call; the top-level
wrappers supply fuel `length + 1`.  Every recursive call acts on a strictly
shorter token slice, so this fuel is never exhausted (`checkV_fuel_irrel`
makes this precise for the validator) and the fuelled functions agree with
the Python originals on every input.
-/

namespace BC

/-- Error taxonomy for the compiler, matching the exception messages raised in
`table.py`.  `outOfFuel` is an artefact of the fuelled embedding and is never
produced when the canonical fuel is supplied; `indexError` models a Python
`IndexError` (list subscript out of range). -/
inductive Err where
  | lexDigit : Err
  | lexChar : Char → Err
  | emptyParens : Err
  | unbalanced : Err
  | unmatched : Err
  | invalidAssignment : Err
  | invalidSyntax : Err
  | operatorConflict : Err
  | invalidToken : String → Err
  | invalidInstruction : Err
  | duplicateName : String → Err
  | reservedName : String → Err
  | tooManyVariables : Err
  | unknownIdentifier : String → Err
  | malformedNode : Err
  | unboundName : Err
  | indexError : Err
  | outOfFuel : Err
deriving DecidableEq, Repr

deriving instance DecidableEq for Except

/-! ## Lexer (`Compiler._tokenize`) -/

/-- Matches the Python regex `[A-Za-z_]` applied to a single character. -/
def isWordStart (c : Char) : Bool :=
  (('A' ≤ c ∧ c ≤ 'Z') ∨ ('a' ≤ c ∧ c ≤ 'z') ∨ c = '_')

/-- Matches the Python regex `[0-9]` applied to a single character. -/
def isDigitCh (c : Char) : Bool := '0' ≤ c ∧ c ≤ '9'

/-- Matches the Python regex `[A-Za-z_0-9]` applied to a single character. -/
def isWordCh (c : Char) : Bool := isWordStart c ∨ isDigitCh c

/-- Matches the Python regex `[ \t\n\r]` applied to a single character. -/
def isBlank (c : Char) : Bool := c = ' ' ∨ c = '\t' ∨ c = '\n' ∨ c = '\r'

/-- Matches the Python regex `[()=;]` applied to a single character. -/
def isSpecial (c : Char) : Bool := c = '(' ∨ c = ')' ∨ c = '=' ∨ c = ';'

/-- Embeds `re.sub(r"#.*\n", "", s)` from `Compiler._tokenize`.  The flag is
`true` while inside a match (a `#` that is followed by a newline somewhere
later); the match consumes everything up to and including the first newline.
A `#` with no later newline matches nothing and is kept verbatim. -/
def stripCommentsAux : Bool → List Char → List Char
  | _, [] => []
  | true, c :: cs => if c = '\n' then stripCommentsAux false cs else stripCommentsAux true cs
  | false, c :: cs =>
    if c = '#' ∧ '\n' ∈ cs then stripCommentsAux true cs
    else c :: stripCommentsAux false cs

def stripComments (s : List Char) : List Char := stripCommentsAux false s

/-- Embeds the character loop of `Compiler._tokenize`.  `word` is the word
accumulated so far (Python variable `word`).  Mirrors the if/elif chain
exactly; note that, like the Python loop, a word still pending when the input
ends is discarded (the Python code never flushes `word` after the loop). -/
def tokenizeAux : List Char → List Char → Except Err (List String)
  | [], _ => .ok []
  | c :: cs, word =>
    if isWordStart c ∧ word = [] then tokenizeAux cs [c]
    else if isDigitCh c ∧ word = [] then .error .lexDigit
    else if isWordCh c ∧ word ≠ [] then tokenizeAux cs (word ++ [c])
    else if isBlank c then
      if word ≠ [] then (tokenizeAux cs []).map (String.mk word :: ·)
      else tokenizeAux cs []
    else if isSpecial c then
      (tokenizeAux cs []).map (fun ts =>
        if word ≠ [] then String.mk word :: String.mk [c] :: ts
        else String.mk [c] :: ts)
    else .error (.lexChar c)

/-- Embeds `Compiler._tokenize`: strip comments, then run the character loop. -/
def tokenize (s : List Char) : Except Err (List String) :=
  tokenizeAux (stripComments s) []

/-! ## Instruction splitter (`Compiler._split_instructions`) -/

/-- Embeds the splitting loop: `buffer` collects tokens of the instruction in
progress; each `;` flushes the buffer (even an empty one).  Exactly as in the
Python code, a non-empty buffer left over when the token stream ends is
dropped, not emitted. -/
def splitAux : List String → List String → List (List String)
  | [], _ => []
  | t :: ts, buffer =>
    if t = ";" then buffer :: splitAux ts []
    else splitAux ts (buffer ++ [t])

def splitInstructions (tokens : List String) : List (List String) :=
  splitAux tokens []

/-! ## Expression validator (`check_valid_recursively`) -/

/-- The scanner state of `check_valid`, Python variable `running`:
`begin` is `-1` (start of an expression), `opnd` is `0` (just after an
operand), `binop` is `1` (just after `and`/`or`), `unary` is `2` (just after
`not`). -/
inductive RState where
  | begin : RState
  | opnd : RState
  | binop : RState
  | unary : RState
deriving DecidableEq, Repr

/-- Embeds the matching-parenthesis scan used by both `check_valid` and
`build_tree` (`for j in range(i+1, len(expr))` with an `open_parens`
counter): given the tokens after an opening `(` and the current surplus
depth `d`, returns the slice strictly inside the parentheses and the tokens
after the matching `)`, or `none` when no matching `)` exists. -/
def splitParen : List String → Nat → Option (List String × List String)
  | [], _ => none
  | t :: ts, d =>
    if t = ")" then
      if d = 0 then some ([], ts)
      else (splitParen ts (d - 1)).map (fun p => (t :: p.1, p.2))
    else if t = "(" then (splitParen ts (d + 1)).map (fun p => (t :: p.1, p.2))
    else (splitParen ts d).map (fun p => (t :: p.1, p.2))

/-- Embeds the `check_valid` scan of `check_valid_recursively`.  `running` and
`clause` are the Python variables of the same names; `dv`/`di` are
`declared_vars`/`declared_ids`.  The fuel strictly decreases on every
recursive call (both the recursion into a parenthesised slice and the
continuation of the scan); `checkV_fuel_irrel` below shows any fuel above the
token-count is equivalent, so the wrapper's `length + 1` reproduces the
unfuelled Python recursion. -/
def checkV (dv di : List String) : Nat → List String → RState → Option String → Except Err Unit
  | 0, _, _, _ => .error .outOfFuel
  | _ + 1, [], running, _ =>
    if running = .binop ∨ running = .unary then .error .invalidAssignment else .ok ()
  | f + 1, t :: ts, running, clause =>
    if t = "(" then
      if running = .opnd then .error .invalidAssignment
      else
        match splitParen ts 0 with
        | none => .error .unbalanced
        | some (inner, rest) =>
          if inner = [] then .error .emptyParens
          else
            match checkV dv di f inner .begin none with
            | .error e => .error e
            | .ok _ => checkV dv di f rest .opnd clause
    else if t = ")" then .error .unmatched
    else if t ∈ dv ∨ t ∈ di ∨ t = "True" ∨ t = "False" then
      if running = .opnd then .error .invalidSyntax
      else checkV dv di f ts .opnd clause
    else if t = "not" then
      if running ≠ .begin then .error .invalidSyntax
      else if clause ≠ none ∧ clause ≠ some "not" then .error .operatorConflict
      else checkV dv di f ts .unary (some "not")
    else if t = "and" ∨ t = "or" then
      if running ≠ .opnd then .error .invalidSyntax
      else if clause ≠ none ∧ clause ≠ some t then .error .operatorConflict
      else checkV dv di f ts .binop (some t)
    else .error (.invalidToken t)

/-- Embeds `check_valid_recursively(expr, declared_vars, declared_ids)`. -/
def check_valid_recursively (expr dv di : List String) : Except Err Unit :=
  checkV dv di (expr.length + 1) expr .begin none

/-! ## Expression trees (`Node`) -/

/-- Embeds the Python `Node` class: a value string and a list of children. -/
inductive Node where
  | mk (value : String) (children : List Node)

mutual

/-- Embeds `Node.depth`: `0` for a childless node, otherwise one plus the
minimum depth among the children (`1 + min(self.children, key=...).depth()`). -/
def Node.depth : Node → Nat
  | .mk _ cs =>
    match depthMinL cs with
    | none => 0
    | some m => 1 + m

/-- The minimum of the depths of a list of nodes (`none` for the empty list). -/
def depthMinL : List Node → Option Nat
  | [] => none
  | c :: cs =>
    match depthMinL cs with
    | none => some (Node.depth c)
    | some m => some (min (Node.depth c) m)

end

/-- Looks a name up in the assignment mapping (Python `variables[...]` on the
insertion-ordered dict). -/
def envLookup : List (String × Bool) → String → Option Bool
  | [], _ => none
  | p :: rest, v => if p.1 = v then some p.2 else envLookup rest v

/-- Embeds Python dict assignment `d[k] = b`: replace in place if the key
exists (keeping its position) and append otherwise. -/
def envSet : List (String × Bool) → String → Bool → List (String × Bool)
  | [], k, b => [(k, b)]
  | p :: rest, k, b => if p.1 = k then (p.1, b) :: rest else p :: envSet rest k b

mutual

/-- Embeds `Node.eval(variables)`.  Mirrors the if/elif chain on `self.value`;
a leaf name absent from the mapping is the Python `KeyError`, reported as
`unboundName`. -/
def Node.eval : Node → List (String × Bool) → Except Err Bool
  | .mk v cs, env =>
    if v = "and" then
      if cs.length < 2 then .error .malformedNode else evalConjL cs env
    else if v = "or" then
      if cs.length < 2 then .error .malformedNode else evalDisjL cs env
    else if v = "not" then
      match cs with
      | [] => .error .malformedNode
      | c :: _ =>
        match Node.eval c env with
        | .error e => .error e
        | .ok b => .ok (!b)
    else if v = "True" then .ok true
    else if v = "False" then .ok false
    else
      match envLookup env v with
      | some b => .ok b
      | none => .error .unboundName

/-- Embeds the `and`-loop of `Node.eval`: the first erroring child aborts, the
first `False` child short-circuits to `False`. -/
def evalConjL : List Node → List (String × Bool) → Except Err Bool
  | [], _ => .ok true
  | c :: cs, env =>
    match Node.eval c env with
    | .error e => .error e
    | .ok b => if b then evalConjL cs env else .ok false

/-- Embeds the `or`-loop of `Node.eval`. -/
def evalDisjL : List Node → List (String × Bool) → Except Err Bool
  | [], _ => .ok false
  | c :: cs, env =>
    match Node.eval c env with
    | .error e => .error e
    | .ok b => if b then .ok true else evalDisjL cs env

end

/-! ## Tree builder (`build_tree_recursively`) -/

/-- Embeds the `build_tree` loop.  `children` and `node_type` are the Python
accumulators of the same names.  Exactly as in the Python code: an
unmatched `(` is skipped silently (the `for j ...` loop finds no match and
the outer loop just advances); `)` raises; a connective token fixes (and must
agree with) `node_type`; any other token becomes a leaf.  At the end the
children are sorted by ascending depth with Python's stable `sorted`,
embedded by the stable `List.insertionSort`; with no connective the single
collected operand is returned (`children[0]`, a Python `IndexError` when
there is none). -/
def buildLoop : Nat → List String → List Node → Option String → Except Err Node
  | 0, _, _, _ => .error .outOfFuel
  | _ + 1, [], children, node_type =>
    let sorted := List.insertionSort (fun a b => Node.depth a ≤ Node.depth b) children
    match node_type with
    | some nt => .ok (.mk nt sorted)
    | none =>
      match sorted with
      | [] => .error .indexError
      | c :: _ => .ok c
  | f + 1, t :: ts, children, node_type =>
    if t = "(" then
      match splitParen ts 0 with
      | none => buildLoop f ts children node_type
      | some (inner, rest) =>
        if inner = [] then .error .emptyParens
        else
          match buildLoop f inner [] none with
          | .error e => .error e
          | .ok node => buildLoop f rest (children ++ [node]) node_type
    else if t = ")" then .error .unmatched
    else if t = "not" ∨ t = "and" ∨ t = "or" then
      match node_type with
      | some nt => if nt ≠ t then .error .operatorConflict else buildLoop f ts children node_type
      | none => buildLoop f ts children (some t)
    else buildLoop f ts (children ++ [.mk t []]) node_type

/-- Embeds `build_tree_recursively(expr)`. -/
def build_tree_recursively (expr : List String) : Except Err Node :=
  buildLoop (expr.length + 1) expr [] none

/-! ## Instruction validation (`Compiler._check_instructions`) -/

/-- The reserved-token list of the declaration branch of
`Compiler._check_instructions` (line `if (t in ('(', ')', 'and', ...))`). -/
def reservedList : List String :=
  ["(", ")", "and", "or", "not", "True", "False", "var", "show", "show_ones", "="]

/-- Embeds the `for t in instr[1:]` loop of the declaration branch of
`Compiler._check_instructions`: duplicate check, reserved-name check, append,
then the `> 64` cardinality check, in that order; returns the extended
`declared_vars`. -/
def processVarDecl : List String → List String → List String → Except Err (List String)
  | [], dv, _ => .ok dv
  | t :: ts, dv, di =>
    if t ∈ dv ∨ t ∈ di then .error (.duplicateName t)
    else if t ∈ reservedList then .error (.reservedName t)
    else if 64 < (dv ++ [t]).length then .error .tooManyVariables
    else processVarDecl ts (dv ++ [t]) di

/-- The token list whose members may not be display arguments in the
`show`/`show_ones` branch of `Compiler._check_instructions`. -/
def displayForbidden : List String := ["(", ")", "and", "or", "not", "True", "False"]

/-- Embeds the `for t in instr[1:]` loop of the display branch of
`Compiler._check_instructions`. -/
def checkShowArgs : List String → List String → List String → Except Err Unit
  | [], _, _ => .ok ()
  | t :: ts, dv, di =>
    if (t ∉ di ∧ t ∉ dv) ∨ t ∈ displayForbidden then .error (.unknownIdentifier t)
    else checkShowArgs ts dv di

/-- Embeds the main loop of `Compiler._check_instructions`, threading
`declared_vars` (`dv`) and `declared_ids` (`di`). -/
def checkLoop : List (List String) → List String → List String → Except Err Unit
  | [], _, _ => .ok ()
  | instr :: rest, dv, di =>
    if instr.length < 2 then .error .invalidInstruction
    else if instr.headD "" = "var" then
      match processVarDecl (instr.drop 1) dv di with
      | .error e => .error e
      | .ok dv' => checkLoop rest dv' di
    else if 3 ≤ instr.length ∧ instr.getD 1 "" = "=" then
      if instr.headD "" ∈ dv ∨ instr.headD "" ∈ di then
        .error (.duplicateName (instr.headD ""))
      else
        match check_valid_recursively (instr.drop 2) dv di with
        | .error e => .error e
        | .ok _ => checkLoop rest dv (di ++ [instr.headD ""])
    else if instr.headD "" = "show" ∨ instr.headD "" = "show_ones" then
      match checkShowArgs (instr.drop 1) dv di with
      | .error e => .error e
      | .ok _ => checkLoop rest dv di
    else .error .invalidInstruction

/-- Embeds `Compiler._check_instructions`, which returns the (unchanged)
instruction list on success. -/
def check_instructions (instrs : List (List String)) : Except Err (List (List String)) :=
  (checkLoop instrs [] []).map (fun _ => instrs)

/-! ## Truth-table driver (`Compiler._show`) -/

/-- The assignment tuples of `itertools.product([False, True], repeat=n)`, in
the order Python generates them: the first variable varies slowest, the last
variable fastest (lexicographic product order with `False` before `True`). -/
def boolProduct : Nat → List (List Bool)
  | 0 => [[]]
  | n + 1 => (boolProduct n).map (false :: ·) ++ (boolProduct n).map (true :: ·)

/-- Embeds `dict(zip(self.vars, vars_value[i]))`. -/
def mkRowEnv (vars : List String) (tup : List Bool) : List (String × Bool) :=
  (List.zip vars tup).foldl (fun env p => envSet env p.1 p.2) []

/-- Embeds the construction of the variable part of a printed row: the string
starts with one space, then `" 1"`/`" 0"` for every variable (a `for v in
vars` loop over the insertion-ordered dict). -/
def rowVarPart (env0 : List (String × Bool)) : String :=
  env0.foldl (fun s p => s ++ (if p.2 then " 1" else " 0")) " "

/-- Embeds the `for id in self.ids.keys(): vars[id] = self.ids[id].eval(vars)`
loop: every identifier is resolved in declaration order into the same
mapping. -/
def resolveIds : List (String × Node) → List (String × Bool) → Except Err (List (String × Bool))
  | [], env => .ok env
  | p :: rest, env =>
    match Node.eval p.2 env with
    | .error e => .error e
    | .ok b => resolveIds rest (envSet env p.1 b)

/-- Embeds the `for id in ids_to_show` loop: appends `" 1"`/`" 0"` per
requested name and computes whether at least one requested name is true
(the `valid_row` update).  A requested name absent from the mapping is the
Python `KeyError` (`unboundName`). -/
def reqCols : List String → List (String × Bool) → Except Err (String × Bool)
  | [], _ => .ok ("", false)
  | r :: rs, env =>
    match envLookup env r with
    | none => .error .unboundName
    | some b =>
      (reqCols rs env).map (fun p => ((if b then " 1" else " 0") ++ p.1, b || p.2))

/-- Produces one row of the truth table for the assignment tuple `tup`:
the printed line together with the `at least one requested name is true`
flag. -/
def rowOf (vars : List String) (ids : List (String × Node)) (reqs : List String)
    (tup : List Bool) : Except Err (String × Bool) :=
  let env0 := mkRowEnv vars tup
  match resolveIds ids env0 with
  | .error e => .error e
  | .ok env => (reqCols reqs env).map (fun p => (rowVarPart env0 ++ "  " ++ p.1, p.2))

/-- Embeds the row loop of `Compiler._show` over the assignment tuples: a row
is printed when `valid_row` holds (`not show_ones` or some requested name is
true); an evaluation error aborts the loop, keeping the rows already
printed. -/
def showGo (vars : List String) (ids : List (String × Node)) (reqs : List String)
    (so : Bool) : List (List Bool) → List String × Option Err
  | [] => ([], none)
  | tup :: tups =>
    match rowOf vars ids reqs tup with
    | .error e => ([], some e)
    | .ok p =>
      let r := showGo vars ids reqs so tups
      ((if !so || p.2 then [p.1] else []) ++ r.1, r.2)

/-- Embeds the header `print` of `Compiler._show`:
`'#' + ' ' + ' '.join(self.vars) + '   ' + ' '.join(ids_to_show)`. -/
def headerLine (vars reqs : List String) : String :=
  "#" ++ " " ++ String.intercalate " " vars ++ "   " ++ String.intercalate " " reqs

/-- Embeds `Compiler._show(ids_to_show, show_ones)`: print the header, then
iterate over all `2 ** len(self.vars)` assignment tuples (the list
`boolProduct` has exactly that length, see `boolProduct_length`, so iterating
the list is the Python `while i < 2**n
: ... vars_value[i]` loop). -/
def showTable (vars : List String) (ids : List (String × Node)) (reqs : List String)
    (so : Bool) : List String × Option Err :=
  let r := showGo vars ids reqs so (boolProduct vars.length)
  (headerLine vars reqs :: r.1, r.2)

/-! ## Execution (`Compiler._execute_instructions`, `Compiler.compile`) -/

/-- Embeds `Compiler._execute_instructions`, threading `self.vars` and
`self.ids` and collecting the printed lines; an exception stops the loop and
keeps the lines printed so far. -/
def execLoop : List (List String) → List String → List (String × Node) → List String × Option Err
  | [], _, _ => ([], none)
  | instr :: rest, vars, ids =>
    match instr with
    | [] => ([], some .indexError)
    | i0 :: irest =>
      if i0 = "var" then
        execLoop rest (vars ++ irest.takeWhile (· ≠ ";")) ids
      else
        match irest with
        | [] => ([], some .indexError)
        | i1 :: _ =>
          if i1 = "=" then
            if i0 ∉ vars ∧ i0 ∉ ids.map Prod.fst then
              match build_tree_recursively (instr.drop 2) with
              | .error e => ([], some e)
              | .ok t => execLoop rest vars (ids ++ [(i0, t)])
            else ([], some (.duplicateName i0))
          else if i0 = "show" ∨ i0 = "show_ones" then
            let r := showTable vars ids irest (i0 = "show_ones")
            match r.2 with
            | some e => (r.1, some e)
            | none =>
              let r' := execLoop rest vars ids
              (r.1 ++ r'.1, r'.2)
          else ([], some .invalidInstruction)

/-- Embeds `Compiler.compile(f)` for a fresh `Compiler()`: tokenize, split,
check, then execute; returns the printed lines and the error that aborted
compilation, if any. -/
def compile (s : List Char) : List String × Option Err :=
  match tokenize s with
  | .error e => ([], some e)
  | .ok toks =>
    match check_instructions (splitInstructions toks) with
    | .error e => ([], some e)
    | .ok instrs => execLoop instrs [] []

end BC

namespace BC

/-! ## Lemmas about the instruction splitter -/

theorem splitAux_no_semi {ys : List String} (h : ";" ∉ ys) (b : List String) :
    splitAux ys b = [] := by
  induction ys generalizing b with
  | nil => rfl
  | cons t ts ih =>
    have ht : t ≠ ";" := by intro he; exact h (he ▸ List.mem_cons_self t ts)
    have hts : ";" ∉ ts := fun hm => h (List.mem_cons_of_mem t hm)
    simp only [splitAux, if_neg ht]
    exact ih hts _

theorem splitAux_append_no_semi {ys : List String} (h : ";" ∉ ys) (xs b : List String) :
    splitAux (xs ++ ys) b = splitAux xs b := by
  induction xs generalizing b with
  | nil => simpa [splitAux] using splitAux_no_semi h b
  | cons t ts ih =>
    simp only [List.cons_append, splitAux, List.append_eq]
    split
    · rw [ih]
    · rw [ih]

/-! ## Lemmas about the assignment enumeration -/

theorem boolProduct_length (n : Nat) : (boolProduct n).length = 2 ^ n := by
  induction n with
  | zero => rfl
  | succ n ih =>
    simp only [boolProduct, List.length_append, List.length_map, ih]
    ring

theorem boolProduct_mem_length {n : Nat} {t : List Bool} (h : t ∈ boolProduct n) :
    t.length = n := by
  induction n generalizing t with
  | zero =>
    simp only [boolProduct, List.mem_singleton] at h
    simp [h]
  | succ n ih =>
    simp only [boolProduct, List.mem_append, List.mem_map] at h
    rcases h with ⟨u, hu, he⟩ | ⟨u, hu, he⟩ <;>
      simp [← he, ih hu]

theorem boolProduct_getD {n i j : Nat} (hi : i < 2 ^ n) (hj : j < n) :
    ((boolProduct n).getD i []).getD j false = i.testBit (n - 1 - j) := by
  induction n generalizing i j with
  | zero => omega
  | succ n ih =>
    have hlen : (boolProduct n).length = 2 ^ n := boolProduct_length n
    have hpow : 2 ^ (n + 1) = 2 ^ n + 2 ^ n := by rw [pow_succ]; ring
    rw [hpow] at hi
    by_cases hcase : i < 2 ^ n
    · -- lower half: first coordinate `false`
      have h1 : (boolProduct (n + 1)).getD i [] = false :: (boolProduct n).getD i [] := by
        have hlt : i < ((boolProduct n).map (false :: ·)).length := by
          rw [List.length_map, hlen]; exact hcase
        rw [boolProduct, List.getD_append _ _ _ _ hlt]
        rw [List.getD_eq_getElem?_getD, List.getElem?_map]
        have h2 : (boolProduct n)[i]? = some ((boolProduct n).getD i []) := by
          rw [List.getD_eq_getElem?_getD]
          cases hx : (boolProduct n)[i]? with
          | none =>
            rw [List.getElem?_eq_none_iff, hlen] at hx
            exact absurd hcase (not_lt.mpr hx)
          | some v => rfl
        rw [h2]
        rfl
      rw [h1]
      cases j with
      | zero =>
        simp only [List.getD_cons_zero]
        rw [show n + 1 - 1 - 0 = n by omega]
        exact (Nat.testBit_eq_false_of_lt hcase).symm
      | succ j =>
        have hj' : j < n := by omega
        simp only [List.getD_cons_succ]
        rw [ih hcase hj']
        congr 1
        omega
    · -- upper half: first coordinate `true`
      have hge : 2 ^ n ≤ i := by omega
      have hi' : i - 2 ^ n < 2 ^ n := by omega
      have hsplit : i = 2 ^ n + (i - 2 ^ n) := by omega
      have h1 : (boolProduct (n + 1)).getD i [] =
          true :: (boolProduct n).getD (i - 2 ^ n) [] := by
        have hge' : ((boolProduct n).map (false :: ·)).length ≤ i := by
          rw [List.length_map, hlen]; exact hge
        rw [boolProduct, List.getD_append_right _ _ _ _ hge']
        rw [List.length_map, hlen]
        rw [List.getD_eq_getElem?_getD, List.getElem?_map]
        have h2 : (boolProduct n)[i - 2 ^ n]? = some ((boolProduct n).getD (i - 2 ^ n) []) := by
          rw [List.getD_eq_getElem?_getD]
          cases hx : (boolProduct n)[i - 2 ^ n]? with
          | none =>
            rw [List.getElem?_eq_none_iff, hlen] at hx
            exact absurd hi' (not_lt.mpr hx)
          | some v => rfl
        rw [h2]
        rfl
      rw [h1]
      cases j with
      | zero =>
        have hbit : i.testBit n = true := by
          conv_lhs => rw [hsplit]
          rw [Nat.testBit_two_pow_add_eq, Nat.testBit_eq_false_of_lt hi']
          rfl
        simp only [List.getD_cons_zero]
        rw [show n + 1 - 1 - 0 = n by omega]
        exact hbit.symm
      | succ j =>
        have hj' : j < n := by omega
        have hlt : n - 1 - j < n := by omega
        have hbit : i.testBit (n - 1 - j) = (i - 2 ^ n).testBit (n - 1 - j) := by
          conv_lhs => rw [hsplit]
          exact Nat.testBit_two_pow_add_gt hlt _
        simp only [List.getD_cons_succ]
        rw [ih hi' hj']
        rw [show n + 1 - 1 - (j + 1) = n - 1 - j by omega]
        exact hbit.symm

/-! ## Characterisation of the row loop of `Compiler._show` -/

/-- The printed line of the row for assignment tuple `tup` (junk when the row
evaluation fails). -/
def rowLineD (vars : List String) (ids : List (String × Node)) (reqs : List String)
    (tup : List Bool) : String :=
  match rowOf vars ids reqs tup with
  | .ok p => p.1
  | .error _ => ""

/-- Whether at least one requested name evaluates to true on the row for
assignment tuple `tup` (false when the row evaluation fails). -/
def rowTrueD (vars : List String) (ids : List (String × Node)) (reqs : List String)
    (tup : List Bool) : Bool :=
  match rowOf vars ids reqs tup with
  | .ok p => p.2
  | .error _ => false

theorem showGo_char (vars : List String) (ids : List (String × Node)) (reqs : List String)
    (so : Bool) (tl : List (List Bool))
    (h : ∀ tup ∈ tl, (rowOf vars ids reqs tup).isOk = true) :
    showGo vars ids reqs so tl =
      ((tl.filter (fun t => !so || rowTrueD vars ids reqs t)).map (rowLineD vars ids reqs),
        none) := by
  induction tl with
  | nil => rfl
  | cons tup tl ih =>
    have hhead := h tup (List.mem_cons_self tup tl)
    have htail : ∀ u ∈ tl, (rowOf vars ids reqs u).isOk = true :=
      fun u hu => h u (List.mem_cons_of_mem tup hu)
    cases hr : rowOf vars ids reqs tup with
    | error e => rw [hr] at hhead; simp [Except.isOk, Except.toBool] at hhead
    | ok p =>
      have hline : rowLineD vars ids reqs tup = p.1 := by simp [rowLineD, hr]
      have hflag : rowTrueD vars ids reqs tup = p.2 := by simp [rowTrueD, hr]
      simp only [showGo, hr]
      rw [ih htail]
      simp only [List.filter_cons, hflag]
      by_cases hc : (!so || p.2) = true
      · rw [if_pos hc, if_pos hc]
        simp [hline]
      · rw [if_neg hc, if_neg hc]
        simp

/-- The filter condition with `show_ones` off accepts every row. -/
theorem showGo_char_unfiltered (vars : List String) (ids : List (String × Node))
    (reqs : List String) (tl : List (List Bool))
    (h : ∀ tup ∈ tl, (rowOf vars ids reqs tup).isOk = true) :
    showGo vars ids reqs false tl = (tl.map (rowLineD vars ids reqs), none) := by
  rw [showGo_char vars ids reqs false tl h]
  simp

theorem reqCols_flag (reqs : List String) (env : List (String × Bool)) (p : String × Bool)
    (h : reqCols reqs env = .ok p) :
    p.2 = true ↔ ∃ r ∈ reqs, envLookup env r = some true := by
  induction reqs generalizing p with
  | nil =>
    simp only [reqCols] at h
    cases h
    simp
  | cons r rs ih =>
    simp only [reqCols] at h
    cases hl : envLookup env r with
    | none => rw [hl] at h; exact absurd h (by simp)
    | some b =>
      rw [hl] at h
      cases hq : reqCols rs env with
      | error e => rw [hq] at h; exact absurd h (by simp [Except.map])
      | ok q =>
        rw [hq] at h
        simp only [Except.map, Except.ok.injEq] at h
        subst h
        simp only [Bool.or_eq_true, List.mem_cons]
        constructor
        · rintro (hb | hq2)
          · exact ⟨r, Or.inl rfl, by rw [hl, hb]⟩
          · obtain ⟨x, hx, hlx⟩ := (ih q hq).1 hq2
            exact ⟨x, Or.inr hx, hlx⟩
        · rintro ⟨x, hx | hx, hlx⟩
          · subst hx
            rw [hl] at hlx
            cases hlx
            exact Or.inl rfl
          · exact Or.inr ((ih q hq).2 ⟨x, hx, hlx⟩)

/-! ## Lemmas about the validator scan -/

theorem splitParen_length :
    ∀ (ts : List String) (d : Nat) (inner rest : List String),
      splitParen ts d = some (inner, rest) → ts.length = inner.length + 1 + rest.length := by
  intro ts
  induction ts with
  | nil => intro d inner rest h; simp [splitParen] at h
  | cons t ts ih =>
    intro d inner rest h
    simp only [splitParen] at h
    by_cases h1 : t = ")"
    · rw [if_pos h1] at h
      by_cases h2 : d = 0
      · rw [if_pos h2] at h
        cases h
        simp
        omega
      · rw [if_neg h2] at h
        rcases Option.map_eq_some'.mp h with ⟨⟨i0, r0⟩, hsp, he⟩
        cases he
        have := ih (d - 1) i0 r0 hsp
        simp [this]
        omega
    · rw [if_neg h1] at h
      by_cases h2 : t = "("
      · rw [if_pos h2] at h
        rcases Option.map_eq_some'.mp h with ⟨⟨i0, r0⟩, hsp, he⟩
        cases he
        have := ih (d + 1) i0 r0 hsp
        simp [this]
        omega
      · rw [if_neg h2] at h
        rcases Option.map_eq_some'.mp h with ⟨⟨i0, r0⟩, hsp, he⟩
        cases he
        have := ih d i0 r0 hsp
        simp [this]
        omega

theorem checkV_fuel_irrel (dv di : List String) :
    ∀ (f : Nat) (e : List String) (g : Nat) (r : RState) (c : Option String),
      e.length < f → e.length < g →
      checkV dv di f e r c = checkV dv di g e r c := by
  intro f
  induction f with
  | zero => intro e g r c hf _; omega
  | succ f ih =>
    intro e g r c hf hg
    match g, hg with
    | g + 1, hg =>
      cases e with
      | nil => rfl
      | cons t ts =>
        have hts : ts.length < f := by simp at hf; omega
        have htsg : ts.length < g := by simp at hg; omega
        by_cases h1 : t = "("
        · simp only [checkV, if_pos h1]
          by_cases h2 : r = .opnd
          · rw [if_pos h2, if_pos h2]
          · rw [if_neg h2, if_neg h2]
            cases hsp : splitParen ts 0 with
            | none => rfl
            | some p =>
              obtain ⟨inner, rest⟩ := p
              have hlen := splitParen_length ts 0 inner rest hsp
              by_cases h3 : inner = []
              · simp [h3]
              · simp only [if_neg h3]
                have hif : inner.length < f := by omega
                have hig : inner.length < g := by omega
                have hrf : rest.length < f := by omega
                have hrg : rest.length < g := by omega
                rw [ih inner g .begin none hif hig]
                cases checkV dv di g inner .begin none with
                | error e0 => rfl
                | ok u => exact ih rest g .opnd c hrf hrg
        · by_cases h2 : t = ")"
          · simp only [checkV, if_neg h1, if_pos h2]
          · by_cases h3 : t ∈ dv ∨ t ∈ di ∨ t = "True" ∨ t = "False"
            · simp only [checkV, if_neg h1, if_neg h2, if_pos h3]
              by_cases h4 : r = .opnd
              · rw [if_pos h4, if_pos h4]
              · rw [if_neg h4, if_neg h4]
                exact ih ts g .opnd c hts htsg
            · by_cases h4 : t = "not"
              · simp only [checkV, if_neg h1, if_neg h2, if_neg h3, if_pos h4]
                by_cases h5 : r ≠ .begin
                · rw [if_pos h5, if_pos h5]
                · rw [if_neg h5, if_neg h5]
                  by_cases h6 : c ≠ none ∧ c ≠ some "not"
                  · rw [if_pos h6, if_pos h6]
                  · rw [if_neg h6, if_neg h6]
                    exact ih ts g .unary (some "not") hts htsg
              · by_cases h5 : t = "and" ∨ t = "or"
                · simp only [checkV, if_neg h1, if_neg h2, if_neg h3, if_neg h4, if_pos h5]
                  by_cases h6 : r ≠ .opnd
                  · rw [if_pos h6, if_pos h6]
                  · rw [if_neg h6, if_neg h6]
                    by_cases h7 : c ≠ none ∧ c ≠ some t
                    · rw [if_pos h7, if_pos h7]
                    · rw [if_neg h7, if_neg h7]
                      exact ih ts g .binop (some t) hts htsg
                · simp only [checkV, if_neg h1, if_neg h2, if_neg h3, if_neg h4, if_neg h5]

/-! ## The expression grammar accepted by the validator -/

/-- No declared name is one of the operator words (guaranteed for variables by
the reserved-name check of the validator; an extra hypothesis for identifier
lists, see C10). -/
def NoOpNames (l : List String) : Prop := "and" ∉ l ∧ "or" ∉ l ∧ "not" ∉ l

instance (l : List String) : Decidable (NoOpNames l) := by
  unfold NoOpNames
  infer_instance

/-- `e` is parenthesis-closed: scanning it never consumes a closing
parenthesis belonging to the context, so `splitParen` passes over it. -/
def spPre (e : List String) : Prop :=
  ∀ (rest : List String) (d : Nat),
    splitParen (e ++ rest) d = (splitParen rest d).map (fun p => (e ++ p.1, p.2))

theorem spPre_nil : spPre [] := by
  intro rest d
  simp only [List.nil_append]
  cases hsp : splitParen rest d with
  | none => rfl
  | some p => rfl

theorem spPre_cons (t : String) (h1 : t ≠ "(") (h2 : t ≠ ")") {e : List String}
    (he : spPre e) : spPre (t :: e) := by
  intro rest d
  show splitParen (t :: (e ++ rest)) d = _
  simp only [splitParen, if_neg h2, if_neg h1]
  rw [he rest d]
  cases hsp : splitParen rest d with
  | none => rfl
  | some p => rfl

theorem spPre_append {e1 e2 : List String} (h1 : spPre e1) (h2 : spPre e2) :
    spPre (e1 ++ e2) := by
  intro rest d
  rw [List.append_assoc, h1 (e2 ++ rest) d, h2 rest d]
  cases hsp : splitParen rest d with
  | none => rfl
  | some p => simp [List.append_assoc]

theorem spPre_paren {e : List String} (he : spPre e) : spPre ("(" :: e ++ [")"]) := by
  intro rest d
  have hshape : ("(" :: e ++ [")"]) ++ rest = "(" :: (e ++ (")" :: rest)) := by
    simp
  rw [hshape]
  simp only [splitParen, if_neg (by decide : ("(" : String) ≠ ")"), if_pos rfl]
  rw [he (")" :: rest) (d + 1)]
  simp only [splitParen, if_pos rfl, if_neg (by omega : ¬d + 1 = 0),
    Nat.add_sub_cancel]
  cases hsp : splitParen rest d with
  | none => rfl
  | some p => simp [List.append_assoc]

/-- A closed expression prefix makes `splitParen` return the expected split at
the matching parenthesis. -/
theorem splitParen_of_spPre {e : List String} (he : spPre e) (ts : List String) :
    splitParen (e ++ ")" :: ts) 0 = some (e, ts) := by
  rw [he (")" :: ts) 0]
  simp [splitParen]

/-! ### Single-step equations for the validator scan -/

theorem checkV_step_atom (dv di : List String) {t : String}
    (h1 : t ≠ "(") (h2 : t ≠ ")")
    (h3 : t ∈ dv ∨ t ∈ di ∨ t = "True" ∨ t = "False")
    (f : Nat) (ts : List String) {r : RState} (c : Option String) (hr : r ≠ .opnd) :
    checkV dv di (f + 1) (t :: ts) r c = checkV dv di f ts .opnd c := by
  simp only [checkV, if_neg h1, if_neg h2, if_pos h3, if_neg hr]

theorem checkV_step_not (dv di : List String) (hdv : NoOpNames dv) (hdi : NoOpNames di)
    (f : Nat) (ts : List String) {c : Option String} (hc : c = none ∨ c = some "not") :
    checkV dv di (f + 1) ("not" :: ts) .begin c = checkV dv di f ts .unary (some "not") := by
  have hmem : ¬(("not" : String) ∈ dv ∨ ("not" : String) ∈ di
      ∨ ("not" : String) = "True" ∨ ("not" : String) = "False") := by
    simp [hdv.2.2, hdi.2.2]
  have hbeg : ¬(RState.begin ≠ RState.begin) := by simp
  have hconf : ¬(c ≠ none ∧ c ≠ some "not") := by
    rcases hc with h | h <;> simp [h]
  simp only [checkV, if_neg (by decide : ("not" : String) ≠ "("),
    if_neg (by decide : ("not" : String) ≠ ")"), if_neg hmem, if_pos rfl,
    if_neg hbeg, if_neg hconf, if_true]

theorem checkV_step_binop (dv di : List String) (hdv : NoOpNames dv) (hdi : NoOpNames di)
    {op : String} (hop : op = "and" ∨ op = "or")
    (f : Nat) (ts : List String) {c : Option String} (hc : c = none ∨ c = some op) :
    checkV dv di (f + 1) (op :: ts) .opnd c = checkV dv di f ts .binop (some op) := by
  have hmem : ¬(op ∈ dv ∨ op ∈ di ∨ op = "True" ∨ op = "False") := by
    rcases hop with h | h <;> subst h
    · simp [hdv.1, hdi.1]
    · simp [hdv.2.1, hdi.2.1]
  have h1 : op ≠ "(" := by rcases hop with h | h <;> subst h <;> decide
  have h2 : op ≠ ")" := by rcases hop with h | h <;> subst h <;> decide
  have h3 : op ≠ "not" := by rcases hop with h | h <;> subst h <;> decide
  have hopnd : ¬(RState.opnd ≠ RState.opnd) := by simp
  have hconf : ¬(c ≠ none ∧ c ≠ some op) := by
    rcases hc with h | h <;> simp [h]
  simp only [checkV, if_neg h1, if_neg h2, if_neg hmem, if_neg h3, if_pos hop,
    if_neg hopnd, if_neg hconf]

theorem checkV_step_paren (dv di : List String) {e : List String} (he : spPre e)
    (hne : e ≠ []) (f : Nat) (ts : List String) {r : RState} (c : Option String)
    (hr : r ≠ .opnd) :
    checkV dv di (f + 1) ("(" :: (e ++ ")" :: ts)) r c =
      match checkV dv di f e .begin none with
      | .error e0 => .error e0
      | .ok _ => checkV dv di f ts .opnd c := by
  simp only [checkV, if_pos rfl, if_neg hr, splitParen_of_spPre he ts, if_neg hne, if_true]

theorem checkV_nil_ok (dv di : List String) (f : Nat) {r : RState} (c : Option String)
    (hr : r = .begin ∨ r = .opnd) :
    checkV dv di (f + 1) [] r c = .ok () := by
  have : ¬(r = .binop ∨ r = .unary) := by rcases hr with h | h <;> simp [h]
  simp only [checkV, if_neg this]

/-! ### The grammar -/

/-- The syntactic categories of the boolean-expression grammar: an operand, a
full expression, and an `op`-chain continuation (`(op operand)+`). -/
inductive GKind where
  | opnd : GKind
  | expr : GKind
  | chain : String → GKind

/-- The grammar of boolean expressions accepted by the validator `check_valid`
over declared variables `dv` and identifiers `di`:
`expr := operand | 'not' operand | operand ('and' operand)+ | operand ('or' operand)+`,
`operand := NAME | 'True' | 'False' | '(' expr ')'` — a single connective kind
per flat parenthesis level, with `not` only as the leading token of a level
applied to one operand. -/
inductive G (dv di : List String) : GKind → List String → Prop where
  | atom (t : String) : t ≠ "(" → t ≠ ")" →
      (t ∈ dv ∨ t ∈ di ∨ t = "True" ∨ t = "False") → G dv di .opnd [t]
  | paren (e : List String) : G dv di .expr e → G dv di .opnd ("(" :: e ++ [")"])
  | single (e : List String) : G dv di .opnd e → G dv di .expr e
  | nott (e : List String) : G dv di .opnd e → G dv di .expr ("not" :: e)
  | chainE (op : String) (e rest : List String) :
      G dv di .opnd e → G dv di (.chain op) rest → G dv di .expr (e ++ rest)
  | chain1 (op : String) (e : List String) : (op = "and" ∨ op = "or") →
      G dv di .opnd e → G dv di (.chain op) (op :: e)
  | chainN (op : String) (e rest : List String) : (op = "and" ∨ op = "or") →
      G dv di .opnd e → G dv di (.chain op) rest → G dv di (.chain op) (op :: e ++ rest)

/-- The property proved about each grammar category: operands and chains step
the scanner, expressions validate from the start state. -/
def GP (dv di : List String) : GKind → List String → Prop
  | .opnd, e => e ≠ [] ∧ spPre e ∧
      ∀ (f : Nat) (rest : List String) (r : RState) (c : Option String),
        (e ++ rest).length < f → r ≠ .opnd →
        checkV dv di f (e ++ rest) r c = checkV dv di (rest.length + 1) rest .opnd c
  | .expr, e => e ≠ [] ∧ spPre e ∧
      ∀ (f : Nat), e.length < f → checkV dv di f e .begin none = .ok ()
  | .chain op, e => e ≠ [] ∧ (op = "and" ∨ op = "or") ∧ spPre e ∧
      ∀ (f : Nat) (rest : List String) (c : Option String),
        (e ++ rest).length < f → (c = none ∨ c = some op) →
        checkV dv di f (e ++ rest) .opnd c = checkV dv di (rest.length + 1) rest .opnd (some op)

/-- Soundness of the grammar for the validator: every sentence of `G` is
accepted by `check_valid`, with the scanner stepping as described by `GP`. -/
theorem G_sound (dv di : List String) (hdv : NoOpNames dv) (hdi : NoOpNames di) :
    ∀ (k : GKind) (e : List String), G dv di k e → GP dv di k e := by
  intro k e hg
  induction hg with
  | atom t h1 h2 h3 =>
    refine ⟨by simp, spPre_cons t h1 h2 spPre_nil, ?_⟩
    intro f rest r c hf hr
    match f, hf with
    | f + 1, hf =>
      show checkV dv di (f + 1) (t :: rest) r c = checkV dv di (rest.length + 1) rest .opnd c
      rw [checkV_step_atom dv di h1 h2 h3 f rest c hr]
      refine checkV_fuel_irrel dv di f rest (rest.length + 1) .opnd c ?_ (by omega)
      simp only [List.length_append, List.length_cons, List.length_nil] at hf
      omega
  | paren e hge ih =>
    obtain ⟨hne, hsp, hstep⟩ := ih
    refine ⟨by simp, spPre_paren hsp, ?_⟩
    intro f rest r c hf hr
    match f, hf with
    | f + 1, hf =>
      have hshape : ("(" :: e ++ [")"]) ++ rest = "(" :: (e ++ ")" :: rest) := by simp
      rw [hshape] at hf ⊢
      rw [checkV_step_paren dv di hsp hne f rest c hr]
      simp only [List.length_cons, List.length_append] at hf
      have hlen : e.length < f := by omega
      rw [checkV_fuel_irrel dv di f e (e.length + 1) .begin none hlen (by omega)]
      rw [hstep (e.length + 1) (by omega)]
      show checkV dv di f rest .opnd c = checkV dv di (rest.length + 1) rest .opnd c
      exact checkV_fuel_irrel dv di f rest (rest.length + 1) .opnd c (by omega) (by omega)
  | single e hge ih =>
    obtain ⟨hne, hsp, hstep⟩ := ih
    refine ⟨hne, hsp, ?_⟩
    intro f hf
    have h0 := hstep f [] .begin none (by simpa using hf) (by decide)
    rw [List.append_nil] at h0
    rw [h0]
    rfl
  | nott e hge ih =>
    obtain ⟨hne, hsp, hstep⟩ := ih
    refine ⟨by simp, spPre_cons "not" (by decide) (by decide) hsp, ?_⟩
    intro f hf
    match f, hf with
    | f + 1, hf =>
      rw [checkV_step_not dv di hdv hdi f e (Or.inl rfl)]
      simp only [List.length_cons] at hf
      have h0 := hstep f [] .unary (some "not") (by simpa using (by omega : e.length < f))
        (by decide)
      rw [List.append_nil] at h0
      rw [h0]
      rfl
  | chainE op e rest hgo hgc iho ihc =>
    obtain ⟨hne, hsp, hstep⟩ := iho
    obtain ⟨hnec, hop, hspc, hstepc⟩ := ihc
    refine ⟨fun h => hne (List.append_eq_nil.mp h).1, spPre_append hsp hspc, ?_⟩
    intro f hf
    rw [hstep f rest .begin none hf (by decide)]
    have h0 := hstepc (rest.length + 1) [] none (by simp) (Or.inl rfl)
    rw [List.append_nil] at h0
    rw [h0]
    rfl
  | chain1 op e hop hgo iho =>
    obtain ⟨hne, hsp, hstep⟩ := iho
    have hop1 : op ≠ "(" := by rcases hop with h | h <;> subst h <;> decide
    have hop2 : op ≠ ")" := by rcases hop with h | h <;> subst h <;> decide
    refine ⟨by simp, hop, spPre_cons op hop1 hop2 hsp, ?_⟩
    intro f rest c hf hc
    match f, hf with
    | f + 1, hf =>
      show checkV dv di (f + 1) (op :: (e ++ rest)) .opnd c =
        checkV dv di (rest.length + 1) rest .opnd (some op)
      rw [checkV_step_binop dv di hdv hdi hop f (e ++ rest) hc]
      simp only [List.length_cons, List.length_append] at hf
      exact hstep f rest .binop (some op) (by simp only [List.length_append]; omega) (by decide)
  | chainN op e rest hop hgo hgc iho ihc =>
    obtain ⟨hne, hsp, hstep⟩ := iho
    obtain ⟨hnec, _, hspc, hstepc⟩ := ihc
    have hop1 : op ≠ "(" := by rcases hop with h | h <;> subst h <;> decide
    have hop2 : op ≠ ")" := by rcases hop with h | h <;> subst h <;> decide
    refine ⟨by simp, hop, spPre_cons op hop1 hop2 (spPre_append hsp hspc), ?_⟩
    intro f rest2 c hf hc
    match f, hf with
    | f + 1, hf =>
      have hshape : ((op :: e ++ rest) ++ rest2) = op :: (e ++ (rest ++ rest2)) := by simp
      rw [hshape] at hf ⊢
      rw [checkV_step_binop dv di hdv hdi hop f (e ++ (rest ++ rest2)) hc]
      simp only [List.length_cons, List.length_append] at hf
      rw [hstep f (rest ++ rest2) .binop (some op)
        (by simp only [List.length_append]; omega) (by decide)]
      exact hstepc ((rest ++ rest2).length + 1) rest2 (some op) (by omega) (Or.inr rfl)

/-- Every expression of the grammar passes `check_valid_recursively`. -/
theorem check_valid_of_G (dv di e : List String) (hdv : NoOpNames dv) (hdi : NoOpNames di)
    (hg : G dv di .expr e) :
    check_valid_recursively e dv di = .ok () :=
  (G_sound dv di hdv hdi .expr e hg).2.2 (e.length + 1) (by omega)

/-! ## Lemmas about declaration processing -/

/-- The names of a declaration are fresh: mutually distinct, not previously
declared as variables or identifiers, and not reserved. -/
def FreshNames (dv di names : List String) : Prop :=
  names.Nodup ∧ ∀ t ∈ names, t ∉ dv ∧ t ∉ di ∧ t ∉ reservedList

instance (dv di names : List String) : Decidable (FreshNames dv di names) := by
  unfold FreshNames
  infer_instance

theorem processVarDecl_append (di : List String) :
    ∀ (good : List String) (dv : List String) (more : List String),
      FreshNames dv di good → dv.length + good.length ≤ 64 →
      processVarDecl (good ++ more) dv di = processVarDecl more (dv ++ good) di := by
  intro good
  induction good with
  | nil => intro dv more _ _; simp
  | cons t ts ih =>
    intro dv more hf hb
    have ht := hf.2 t (List.mem_cons_self t ts)
    have hdup : ¬(t ∈ dv ∨ t ∈ di) := by
      rintro (h | h)
      · exact ht.1 h
      · exact ht.2.1 h
    have hres : t ∉ reservedList := ht.2.2
    have hcnt : ¬(64 < (dv ++ [t]).length) := by
      simp only [List.length_append, List.length_cons, List.length_nil]
      simp only [List.length_cons] at hb
      omega
    simp only [List.cons_append, processVarDecl, if_neg hdup, if_neg hres, if_neg hcnt,
      List.append_eq]
    have hf' : FreshNames (dv ++ [t]) di ts := by
      refine ⟨hf.1.of_cons, fun u hu => ?_⟩
      have hut := hf.2 u (List.mem_cons_of_mem t hu)
      have hne : u ≠ t := by
        intro he
        exact (List.nodup_cons.mp hf.1).1 (he ▸ hu)
      refine ⟨?_, hut.2.1, hut.2.2⟩
      simp only [List.mem_append, List.mem_singleton]
      rintro (h | h)
      · exact hut.1 h
      · exact hne h
    have hb' : (dv ++ [t]).length + ts.length ≤ 64 := by
      simp only [List.length_append, List.length_singleton]
      simp only [List.length_cons] at hb
      omega
    rw [ih (dv ++ [t]) more hf' hb']
    simp

theorem processVarDecl_overflow (di : List String) :
    ∀ (names : List String) (dv : List String),
      FreshNames dv di names → dv.length ≤ 64 → 65 ≤ dv.length + names.length →
      processVarDecl names dv di = .error .tooManyVariables := by
  intro names
  induction names with
  | nil => intro dv _ hdv h65; simp at h65; omega
  | cons t ts ih =>
    intro dv hf hdv h65
    have ht := hf.2 t (List.mem_cons_self t ts)
    have hdup : ¬(t ∈ dv ∨ t ∈ di) := by
      rintro (h | h)
      · exact ht.1 h
      · exact ht.2.1 h
    have hres : t ∉ reservedList := ht.2.2
    simp only [processVarDecl, if_neg hdup, if_neg hres]
    by_cases hcnt : 64 < (dv ++ [t]).length
    · rw [if_pos hcnt]
    · rw [if_neg hcnt]
      have hf' : FreshNames (dv ++ [t]) di ts := by
        refine ⟨hf.1.of_cons, fun u hu => ?_⟩
        have hut := hf.2 u (List.mem_cons_of_mem t hu)
        have hne : u ≠ t := fun he => (List.nodup_cons.mp hf.1).1 (he ▸ hu)
        refine ⟨?_, hut.2.1, hut.2.2⟩
        simp only [List.mem_append, List.mem_singleton]
        rintro (h | h)
        · exact hut.1 h
        · exact hne h
      have hlen : (dv ++ [t]).length = dv.length + 1 := by simp
      refine ih (dv ++ [t]) hf' ?_ ?_
      · simp only [List.length_append, List.length_singleton] at hcnt ⊢
        omega
      · simp only [List.length_cons] at h65
        omega

/-! ## Well-formed expression trees and evaluation safety -/

/-- A tree is well formed over the name list `names` when its operator nodes
have admissible child counts and its leaf names (those dispatched to the
mapping lookup by `Node.eval`) all lie in `names`. -/
inductive NodeWF (names : List String) : Node → Prop where
  | op (v : String) (cs : List Node) : (v = "and" ∨ v = "or") → 2 ≤ cs.length →
      (∀ c ∈ cs, NodeWF names c) → NodeWF names (.mk v cs)
  | nt (cs : List Node) : 1 ≤ cs.length → (∀ c ∈ cs, NodeWF names c) →
      NodeWF names (.mk "not" cs)
  | tr (cs : List Node) : NodeWF names (.mk "True" cs)
  | fa (cs : List Node) : NodeWF names (.mk "False" cs)
  | leaf (v : String) (cs : List Node) :
      v ∉ (["and", "or", "not", "True", "False"] : List String) → v ∈ names →
      NodeWF names (.mk v cs)

theorem NodeWF_mono {names names' : List String} (hsub : ∀ v ∈ names, v ∈ names')
    {t : Node} (h : NodeWF names t) : NodeWF names' t := by
  induction h with
  | op v cs hv hlen hcs ih => exact .op v cs hv hlen (fun c hc => ih c hc)
  | nt cs hlen hcs ih => exact .nt cs hlen (fun c hc => ih c hc)
  | tr cs => exact .tr cs
  | fa cs => exact .fa cs
  | leaf v cs hv hmem => exact .leaf v cs hv (hsub v hmem)

theorem evalConjL_ok (cs : List Node) (env : List (String × Bool))
    (h : ∀ c ∈ cs, ∃ b, Node.eval c env = .ok b) :
    ∃ b, evalConjL cs env = .ok b := by
  induction cs with
  | nil => exact ⟨true, rfl⟩
  | cons c cs ih =>
    obtain ⟨b, hb⟩ := h c (List.mem_cons_self c cs)
    obtain ⟨b2, hb2⟩ := ih (fun u hu => h u (List.mem_cons_of_mem c hu))
    simp only [evalConjL, hb]
    cases b with
    | true => exact ⟨b2, by simpa using hb2⟩
    | false => exact ⟨false, by simp⟩

theorem evalDisjL_ok (cs : List Node) (env : List (String × Bool))
    (h : ∀ c ∈ cs, ∃ b, Node.eval c env = .ok b) :
    ∃ b, evalDisjL cs env = .ok b := by
  induction cs with
  | nil => exact ⟨false, rfl⟩
  | cons c cs ih =>
    obtain ⟨b, hb⟩ := h c (List.mem_cons_self c cs)
    obtain ⟨b2, hb2⟩ := ih (fun u hu => h u (List.mem_cons_of_mem c hu))
    simp only [evalDisjL, hb]
    cases b with
    | true => exact ⟨true, by simp⟩
    | false => exact ⟨b2, by simpa using hb2⟩

/-- A well-formed tree evaluates without error in every mapping that binds all
the names: neither the `MalformedNode` nor the `UnboundName` branch of
`Node.eval` is reachable. -/
theorem NodeWF_eval {names : List String} {t : Node} (h : NodeWF names t)
    (env : List (String × Bool)) (henv : ∀ v ∈ names, ∃ b, envLookup env v = some b) :
    ∃ b, Node.eval t env = .ok b := by
  induction h with
  | op v cs hv hlen hcs ih =>
    have hne : ¬(cs.length < 2) := by omega
    rcases hv with hv | hv <;> subst hv
    · have he : Node.eval (Node.mk "and" cs) env = evalConjL cs env := by
        rw [Node.eval.eq_def]; dsimp only; rw [if_pos rfl, if_neg hne]
      rw [he]
      exact evalConjL_ok cs env ih
    · have he : Node.eval (Node.mk "or" cs) env = evalDisjL cs env := by
        rw [Node.eval.eq_def]; dsimp only; rw [if_neg (show ("or" : String) ≠ "and" by decide), if_pos rfl,
          if_neg hne]
      rw [he]
      exact evalDisjL_ok cs env ih
  | nt cs hlen hcs ih =>
    cases cs with
    | nil => simp at hlen
    | cons c cs =>
      obtain ⟨b, hb⟩ := ih c (List.mem_cons_self c cs)
      refine ⟨!b, ?_⟩
      rw [Node.eval.eq_def]; dsimp only; rw [if_neg (show ("not" : String) ≠ "and" by decide),
        if_neg (show ("not" : String) ≠ "or" by decide), if_pos rfl]
      show (match Node.eval c env with
        | .error e => .error e
        | .ok b => .ok (!b)) = Except.ok (ε := Err) (!b)
      rw [hb]
  | tr cs =>
    refine ⟨true, ?_⟩
    rw [Node.eval.eq_def]; dsimp only; rw [if_neg (show ("True" : String) ≠ "and" by decide),
      if_neg (show ("True" : String) ≠ "or" by decide),
      if_neg (show ("True" : String) ≠ "not" by decide), if_pos rfl]
  | fa cs =>
    refine ⟨false, ?_⟩
    rw [Node.eval.eq_def]; dsimp only; rw [if_neg (show ("False" : String) ≠ "and" by decide),
      if_neg (show ("False" : String) ≠ "or" by decide),
      if_neg (show ("False" : String) ≠ "not" by decide),
      if_neg (show ("False" : String) ≠ "True" by decide), if_pos rfl]
  | leaf v cs hv hmem =>
    simp only [List.mem_cons, List.not_mem_nil, or_false, not_or] at hv
    obtain ⟨b, hb⟩ := henv v hmem
    refine ⟨b, ?_⟩
    rw [Node.eval.eq_def]; dsimp only; rw [if_neg hv.1, if_neg hv.2.1, if_neg hv.2.2.1, if_neg hv.2.2.2.1,
      if_neg hv.2.2.2.2]
    show (match envLookup env v with
      | some b => Except.ok b
      | none => Except.error Err.unboundName) = Except.ok b
    rw [hb]

/-! ## The validator accepts only expressions the builder turns into
well-formed trees -/

/-- The invariant connecting the scanner state of `check_valid` (`r`, `c`)
with the accumulator state of `build_tree` (the number `k` of collected
children; the builder's `node_type` always equals the scanner's `clause` on a
synchronised run). -/
def ChainInv (r : RState) (c : Option String) (k : Nat) : Prop :=
  match r with
  | .begin => c = none ∧ k = 0
  | .unary => c = some "not" ∧ k = 0
  | .opnd => (c = none ∧ k = 1) ∨ (c = some "not" ∧ k = 1)
      ∨ ((c = some "and" ∨ c = some "or") ∧ 2 ≤ k)
  | .binop => (c = some "and" ∨ c = some "or") ∧ 1 ≤ k

/-- Scanning one operand moves any non-after-operand state to the
after-operand state with one more collected child. -/
theorem ChainInv_step_operand {r : RState} {c : Option String} {k : Nat}
    (h : ChainInv r c k) (hr : r ≠ .opnd) : ChainInv .opnd c (k + 1) := by
  cases r with
  | begin =>
    obtain ⟨h1, h2⟩ := h
    exact Or.inl ⟨h1, by omega⟩
  | opnd => exact absurd rfl hr
  | unary =>
    obtain ⟨h1, h2⟩ := h
    exact Or.inr (Or.inl ⟨h1, by omega⟩)
  | binop =>
    obtain ⟨h1, h2⟩ := h
    exact Or.inr (Or.inr ⟨h1, by omega⟩)

/-- At the end of a scan in the after-operand state, `build_tree` produces a
well-formed node from the collected children. -/
theorem buildLoop_final (names : List String) (g : Nat) (children : List Node)
    (c : Option String) (hinv : ChainInv .opnd c children.length)
    (hwf : ∀ ch ∈ children, NodeWF names ch) :
    ∃ t, buildLoop (g + 1) [] children c = .ok t ∧ NodeWF names t := by
  have hperm := List.perm_insertionSort (fun a b => Node.depth a ≤ Node.depth b) children
  have hsortmem : ∀ ch ∈ List.insertionSort (fun a b => Node.depth a ≤ Node.depth b)
      children, NodeWF names ch := fun ch hch => hwf ch (hperm.mem_iff.mp hch)
  have hsortlen : (List.insertionSort (fun a b => Node.depth a ≤ Node.depth b)
      children).length = children.length := hperm.length_eq
  rcases hinv with ⟨hc, hk⟩ | ⟨hc, hk⟩ | ⟨hc, hk⟩
  · subst hc
    obtain ⟨ch, hch⟩ := List.length_eq_one.mp hk
    subst hch
    exact ⟨ch, rfl, hwf ch (by simp)⟩
  · subst hc
    refine ⟨Node.mk "not"
      (List.insertionSort (fun a b => Node.depth a ≤ Node.depth b) children), rfl, ?_⟩
    exact NodeWF.nt _ (by rw [hsortlen]; omega) hsortmem
  · obtain ⟨v, hv, hceq⟩ : ∃ v, (v = "and" ∨ v = "or") ∧ c = some v := by
      rcases hc with h | h
      · exact ⟨"and", Or.inl rfl, h⟩
      · exact ⟨"or", Or.inr rfl, h⟩
    subst hceq
    refine ⟨Node.mk v
      (List.insertionSort (fun a b => Node.depth a ≤ Node.depth b) children), rfl, ?_⟩
    exact NodeWF.op v _ hv (by rw [hsortlen]; omega) hsortmem

/-- The empty-scan case of the synchronised run. -/
theorem check_build_nil (dv di names : List String) (f g : Nat) (r : RState)
    (c : Option String) (children : List Node)
    (hf : 0 < f) (hg : 0 < g)
    (hinv : ChainInv r c children.length)
    (hwf : ∀ ch ∈ children, NodeWF names ch)
    (hbeg : r = .begin → ([] : List String) ≠ [])
    (hok : checkV dv di f [] r c = .ok ()) :
    ∃ t, buildLoop g [] children c = .ok t ∧ NodeWF names t := by
  match f, hf, g, hg with
  | f + 1, _, g + 1, _ =>
    cases r with
    | begin => exact absurd rfl (hbeg rfl)
    | opnd => exact buildLoop_final names g children c hinv hwf
    | binop => simp [checkV] at hok
    | unary => simp [checkV] at hok

/-- The synchronised run of the validator and the tree builder: whenever the
validator accepts the remaining tokens from a state connected by `ChainInv`
to the builder's accumulators (with all collected children well formed), the
builder succeeds and returns a well-formed tree.  The bound `n` dominates the
token count and drives the induction. -/
theorem check_build (dv di : List String) (hdv : NoOpNames dv) (hdi : NoOpNames di) :
    ∀ (n : Nat) (e : List String), e.length ≤ n →
      ∀ (f g : Nat) (r : RState) (c : Option String) (children : List Node),
        e.length < f → e.length < g →
        ChainInv r c children.length →
        (∀ ch ∈ children, NodeWF (dv ++ di) ch) →
        (r = .begin → e ≠ []) →
        checkV dv di f e r c = .ok () →
        ∃ t, buildLoop g e children c = .ok t ∧ NodeWF (dv ++ di) t := by
  intro n
  induction n with
  | zero =>
    intro e hen f g r c children hf hg hinv hwf hbeg hok
    have he : e = [] := List.eq_nil_of_length_eq_zero (by omega)
    subst he
    exact check_build_nil dv di (dv ++ di) f g r c children (by omega) (by omega)
      hinv hwf hbeg hok
  | succ n ih =>
    intro e hen f g r c children hf hg hinv hwf hbeg hok
    cases e with
    | nil =>
      exact check_build_nil dv di (dv ++ di) f g r c children (by omega) (by omega)
        hinv hwf hbeg hok
    | cons t ts =>
      match f, hf, g, hg with
      | f + 1, hf, g + 1, hg =>
        have hts_f : ts.length < f := by simp only [List.length_cons] at hf; omega
        have hts_g : ts.length < g := by simp only [List.length_cons] at hg; omega
        have hts_n : ts.length ≤ n := by simp only [List.length_cons] at hen; omega
        by_cases h1 : t = "("
        · subst h1
          by_cases h2 : r = .opnd
          · simp [checkV, h2] at hok
          · cases hsp : splitParen ts 0 with
            | none => simp [checkV, h2, hsp] at hok
            | some p =>
              obtain ⟨inner, rest⟩ := p
              have hlen := splitParen_length ts 0 inner rest hsp
              by_cases h3 : inner = []
              · simp [checkV, h2, hsp, h3] at hok
              · rw [show checkV dv di (f + 1) ("(" :: ts) r c =
                    (match checkV dv di f inner .begin none with
                     | .error e0 => .error e0
                     | .ok _ => checkV dv di f rest .opnd c) from by
                  simp [checkV, h2, hsp, h3]] at hok
                cases hin : checkV dv di f inner .begin none with
                | error e0 => rw [hin] at hok; simp at hok
                | ok u =>
                  cases u
                  rw [hin] at hok
                  obtain ⟨tin, hbin, hwin⟩ := ih inner (by omega) f g .begin none []
                    (by omega) (by omega) ⟨rfl, rfl⟩
                    (fun ch hch => absurd hch (List.not_mem_nil ch)) (fun _ => h3) hin
                  have hinv' : ChainInv .opnd c (children ++ [tin]).length := by
                    rw [List.length_append, List.length_singleton]
                    exact ChainInv_step_operand hinv h2
                  have hwf' : ∀ ch ∈ children ++ [tin], NodeWF (dv ++ di) ch := by
                    intro ch hch
                    rcases List.mem_append.mp hch with h | h
                    · exact hwf ch h
                    · rw [List.mem_singleton.mp h]; exact hwin
                  obtain ⟨tt, hbt, hwt⟩ := ih rest (by omega) f g .opnd c
                    (children ++ [tin]) (by omega) (by omega) hinv' hwf'
                    (fun h => absurd h (by decide)) hok
                  refine ⟨tt, ?_, hwt⟩
                  rw [show buildLoop (g + 1) ("(" :: ts) children c =
                      (match buildLoop g inner [] none with
                       | .error e0 => .error e0
                       | .ok node => buildLoop g rest (children ++ [node]) c) from by
                    simp [buildLoop, hsp, h3]]
                  rw [hbin]
                  exact hbt
        · by_cases h2 : t = ")"
          · subst h2
            simp [checkV, h1] at hok
          · by_cases h3 : t ∈ dv ∨ t ∈ di ∨ t = "True" ∨ t = "False"
            · by_cases h4 : r = .opnd
              · simp [checkV, h1, h2, h3, h4] at hok
              · rw [checkV_step_atom dv di h1 h2 h3 f ts c h4] at hok
                have hnotop : ¬(t = "not" ∨ t = "and" ∨ t = "or") := by
                  rintro (he | he | he) <;> subst he <;>
                    rcases h3 with h | h | h | h
                  · exact hdv.2.2 h
                  · exact hdi.2.2 h
                  · exact absurd h (by decide)
                  · exact absurd h (by decide)
                  · exact hdv.1 h
                  · exact hdi.1 h
                  · exact absurd h (by decide)
                  · exact absurd h (by decide)
                  · exact hdv.2.1 h
                  · exact hdi.2.1 h
                  · exact absurd h (by decide)
                  · exact absurd h (by decide)
                have hwleaf : NodeWF (dv ++ di) (Node.mk t []) := by
                  by_cases ht : t = "True"
                  · subst ht; exact .tr []
                  · by_cases hfa : t = "False"
                    · subst hfa; exact .fa []
                    · have hmem2 : t ∈ dv ++ di := by
                        rcases h3 with h | h | h | h
                        · exact List.mem_append_left _ h
                        · exact List.mem_append_right _ h
                        · exact absurd h ht
                        · exact absurd h hfa
                      refine .leaf t [] ?_ hmem2
                      have hna : t ≠ "and" := fun he => hnotop (Or.inr (Or.inl he))
                      have hno : t ≠ "or" := fun he => hnotop (Or.inr (Or.inr he))
                      have hnn : t ≠ "not" := fun he => hnotop (Or.inl he)
                      simp only [List.mem_cons, List.not_mem_nil, or_false, not_or]
                      exact ⟨hna, hno, hnn, ht, hfa⟩
                have hinv' : ChainInv .opnd c (children ++ [Node.mk t []]).length := by
                  rw [List.length_append, List.length_singleton]
                  exact ChainInv_step_operand hinv h4
                have hwf' : ∀ ch ∈ children ++ [Node.mk t []], NodeWF (dv ++ di) ch := by
                  intro ch hch
                  rcases List.mem_append.mp hch with h | h
                  · exact hwf ch h
                  · rw [List.mem_singleton.mp h]; exact hwleaf
                rw [show buildLoop (g + 1) (t :: ts) children c =
                    buildLoop g ts (children ++ [Node.mk t []]) c from by
                  simp [buildLoop, h1, h2, hnotop]]
                exact ih ts hts_n f g .opnd c (children ++ [Node.mk t []])
                  hts_f hts_g hinv' hwf' (fun h => absurd h (by decide)) hok
            · by_cases h4 : t = "not"
              · subst h4
                by_cases h5 : r = .begin
                · subst h5
                  have hinv2 : c = none ∧ children.length = 0 := hinv
                  obtain ⟨hc0, hk0⟩ := hinv2
                  subst hc0
                  rw [checkV_step_not dv di hdv hdi f ts (Or.inl rfl)] at hok
                  rw [show buildLoop (g + 1) ("not" :: ts) children none =
                      buildLoop g ts children (some "not") from by
                    simp [buildLoop]]
                  exact ih ts hts_n f g .unary (some "not") children hts_f hts_g
                    ⟨rfl, hk0⟩ hwf (fun h => absurd h (by decide)) hok
                · have hnd : ("not" : String) ∉ dv := fun h => h3 (Or.inl h)
                  have hni : ("not" : String) ∉ di := fun h => h3 (Or.inr (Or.inl h))
                  simp [checkV, h1, h2, hnd, hni, h5] at hok
              · by_cases h5 : t = "and" ∨ t = "or"
                · by_cases h6 : r = .opnd
                  · subst h6
                    by_cases h7 : c = none ∨ c = some t
                    · rw [checkV_step_binop dv di hdv hdi h5 f ts h7] at hok
                      have hinv2 : (c = none ∧ children.length = 1)
                          ∨ (c = some "not" ∧ children.length = 1)
                          ∨ ((c = some "and" ∨ c = some "or")
                              ∧ 2 ≤ children.length) := hinv
                      have hts : some t = some "and" ∨ some t = some "or" := by
                        rcases h5 with h | h <;> subst h
                        · exact Or.inl rfl
                        · exact Or.inr rfl
                      rcases h7 with h7 | h7
                      · subst h7
                        have hk1 : children.length = 1 := by
                          rcases hinv2 with ⟨_, h⟩ | ⟨h, _⟩ | ⟨h | h, _⟩ <;>
                            first | exact h | exact absurd h (by simp)
                        rw [show buildLoop (g + 1) (t :: ts) children none =
                            buildLoop g ts children (some t) from by
                          rcases h5 with h | h <;> subst h <;> simp [buildLoop]]
                        exact ih ts hts_n f g .binop (some t) children hts_f hts_g
                          ⟨hts, by omega⟩ hwf (fun h => absurd h (by decide)) hok
                      · subst h7
                        have hk2 : 2 ≤ children.length := by
                          rcases hinv2 with ⟨h, _⟩ | ⟨h, _⟩ | ⟨_, h⟩
                          · exact absurd h (by simp)
                          · exfalso
                            have : t = "not" := by
                              injection h with h
                            rcases h5 with h5 | h5 <;> rw [h5] at this <;>
                              exact absurd this (by decide)
                          · exact h
                        rw [show buildLoop (g + 1) (t :: ts) children (some t) =
                            buildLoop g ts children (some t) from by
                          rcases h5 with h | h <;> subst h <;> simp [buildLoop]]
                        exact ih ts hts_n f g .binop (some t) children hts_f hts_g
                          ⟨hts, by omega⟩ hwf (fun h => absurd h (by decide)) hok
                    · have hcc : c ≠ none ∧ c ≠ some t := by
                        constructor <;> intro he <;> exact h7 (by simp [he])
                      simp [checkV, h1, h2, h3, h4, h5, hcc] at hok
                  · simp [checkV, h1, h2, h3, h4, h5, h6] at hok
                · simp [checkV, h1, h2, h3, h4, h5] at hok

/-- `check_valid_recursively` acceptance implies `build_tree_recursively`
success, with a well-formed result. -/
theorem check_build_top (dv di : List String) (hdv : NoOpNames dv) (hdi : NoOpNames di)
    (e : List String) (hne : e ≠ [])
    (hok : check_valid_recursively e dv di = .ok ()) :
    ∃ t, build_tree_recursively e = .ok t ∧ NodeWF (dv ++ di) t :=
  check_build dv di hdv hdi e.length e le_rfl (e.length + 1) (e.length + 1) .begin none []
    (by omega) (by omega) ⟨rfl, rfl⟩ (fun ch hch => absurd hch (List.not_mem_nil ch))
    (fun _ => hne) hok

/-! ## Bindings during a truth-table row -/

theorem envLookup_envSet (env : List (String × Bool)) (k : String) (b : Bool) (v : String) :
    envLookup (envSet env k b) v = if k = v then some b else envLookup env v := by
  induction env with
  | nil => rfl
  | cons p rest ih =>
    by_cases hp : p.1 = k
    · simp only [envSet, if_pos hp]
      by_cases hv : k = v
      · subst hv
        simp [envLookup, hp]
      · simp [envLookup, hp, hv]
    · simp only [envSet, if_neg hp]
      by_cases hv : p.1 = v
      · have hkv : ¬k = v := fun he => hp (he ▸ hv)
        simp [envLookup, hv, hkv]
      · simp only [envLookup, if_neg hv, ih]

theorem foldl_envSet_lookup (v : String) :
    ∀ (ps : List (String × Bool)) (env : List (String × Bool)),
      ((∃ b, envLookup env v = some b) ∨ v ∈ ps.map Prod.fst) →
      ∃ b, envLookup (ps.foldl (fun e p => envSet e p.1 p.2) env) v = some b := by
  intro ps
  induction ps with
  | nil =>
    intro env h
    rcases h with h | h
    · exact h
    · simp at h
  | cons p ps ih =>
    intro env h
    simp only [List.foldl_cons]
    apply ih
    by_cases hv : p.1 = v
    · left
      exact ⟨p.2, by rw [envLookup_envSet, if_pos hv]⟩
    · rcases h with h | h
      · left
        obtain ⟨b, hb⟩ := h
        exact ⟨b, by rw [envLookup_envSet, if_neg hv, hb]⟩
      · simp only [List.map_cons, List.mem_cons] at h
        rcases h with h | h
        · exact absurd h.symm hv
        · exact Or.inr h

/-- `dict(zip(self.vars, tup))` binds every variable when the tuple is a
complete assignment. -/
theorem mkRowEnv_lookup (vars : List String) (tup : List Bool)
    (hlen : tup.length = vars.length) (v : String) (hv : v ∈ vars) :
    ∃ b, envLookup (mkRowEnv vars tup) v = some b := by
  apply foldl_envSet_lookup v (List.zip vars tup) []
  right
  rw [List.map_fst_zip vars tup (by omega)]
  exact hv

/-- The identifier trees resolved so far, each well formed over the variables
and the identifiers declared strictly before it. -/
def GoodIds (vars : List String) : List String → List (String × Node) → Prop
  | _, [] => True
  | pre, p :: rest => NodeWF (vars ++ pre) p.2 ∧ GoodIds vars (pre ++ [p.1]) rest

theorem GoodIds_mono_vars {vars vars' : List String} (hsub : ∀ v ∈ vars, v ∈ vars') :
    ∀ (ids : List (String × Node)) (pre : List String),
      GoodIds vars pre ids → GoodIds vars' pre ids := by
  intro ids
  induction ids with
  | nil => intro pre _; trivial
  | cons p rest ih =>
    intro pre h
    refine ⟨NodeWF_mono ?_ h.1, ih (pre ++ [p.1]) h.2⟩
    intro v hv
    rcases List.mem_append.mp hv with h2 | h2
    · exact List.mem_append_left _ (hsub v h2)
    · exact List.mem_append_right _ h2

theorem GoodIds_snoc (vars : List String) :
    ∀ (ids : List (String × Node)) (pre : List String) (p : String × Node),
      GoodIds vars pre ids → NodeWF (vars ++ (pre ++ ids.map Prod.fst)) p.2 →
      GoodIds vars pre (ids ++ [p]) := by
  intro ids
  induction ids with
  | nil =>
    intro pre p _ hwf
    exact ⟨by simpa using hwf, trivial⟩
  | cons q rest ih =>
    intro pre p h hwf
    refine ⟨h.1, ih (pre ++ [q.1]) p h.2 ?_⟩
    have hshape : (pre ++ [q.1]) ++ rest.map Prod.fst = pre ++ (q.1 :: rest.map Prod.fst) := by
      simp
    rw [hshape]
    exact hwf

theorem resolveIds_ok (vars : List String) :
    ∀ (ids : List (String × Node)) (pre : List String) (env : List (String × Bool)),
      GoodIds vars pre ids →
      (∀ v, v ∈ vars ∨ v ∈ pre → ∃ b, envLookup env v = some b) →
      ∃ env', resolveIds ids env = .ok env' ∧
        ∀ v, v ∈ vars ∨ v ∈ pre ∨ v ∈ ids.map Prod.fst → ∃ b, envLookup env' v = some b := by
  intro ids
  induction ids with
  | nil =>
    intro pre env _ henv
    refine ⟨env, rfl, ?_⟩
    intro v hv
    rcases hv with h | h | h
    · exact henv v (Or.inl h)
    · exact henv v (Or.inr h)
    · simp at h
  | cons p rest ih =>
    intro pre env hg henv
    obtain ⟨b, hb⟩ := NodeWF_eval hg.1 env (fun v hv => henv v (by
      rcases List.mem_append.mp hv with h | h
      · exact Or.inl h
      · exact Or.inr h))
    obtain ⟨env', hres, henv'⟩ := ih (pre ++ [p.1]) (envSet env p.1 b) hg.2 (by
      intro v hv
      by_cases hvp : p.1 = v
      · exact ⟨b, by rw [envLookup_envSet, if_pos hvp]⟩
      · have : v ∈ vars ∨ v ∈ pre := by
          rcases hv with h | h
          · exact Or.inl h
          · rcases List.mem_append.mp h with h2 | h2
            · exact Or.inr h2
            · exact absurd (List.mem_singleton.mp h2).symm hvp
        obtain ⟨b2, hb2⟩ := henv v this
        exact ⟨b2, by rw [envLookup_envSet, if_neg hvp, hb2]⟩)
    refine ⟨env', ?_, ?_⟩
    · simp only [resolveIds, hb]
      exact hres
    · intro v hv
      apply henv'
      rcases hv with h | h | h
      · exact Or.inl h
      · exact Or.inr (Or.inl (List.mem_append_left _ h))
      · simp only [List.map_cons, List.mem_cons] at h
        rcases h with h | h
        · exact Or.inr (Or.inl (List.mem_append_right _ (by simp [h])))
        · exact Or.inr (Or.inr h)

theorem reqCols_ok (env : List (String × Bool)) :
    ∀ (reqs : List String),
      (∀ r ∈ reqs, ∃ b, envLookup env r = some b) →
      ∃ p, reqCols reqs env = .ok p := by
  intro reqs
  induction reqs with
  | nil => intro _; exact ⟨("", false), rfl⟩
  | cons r rs ih =>
    intro h
    obtain ⟨b, hb⟩ := h r (List.mem_cons_self r rs)
    obtain ⟨p, hp⟩ := ih (fun u hu => h u (List.mem_cons_of_mem r hu))
    refine ⟨((if b then " 1" else " 0") ++ p.1, b || p.2), ?_⟩
    simp only [reqCols, hb, hp, Except.map]

/-- On a complete assignment tuple, a row of a validated table evaluates
without internal errors. -/
theorem rowOf_ok (vars : List String) (ids : List (String × Node)) (reqs : List String)
    (hg : GoodIds vars [] ids)
    (hreq : ∀ t ∈ reqs, t ∈ vars ∨ t ∈ ids.map Prod.fst)
    (tup : List Bool) (hlen : tup.length = vars.length) :
    ∃ p, rowOf vars ids reqs tup = .ok p := by
  obtain ⟨env', hres, henv'⟩ := resolveIds_ok vars ids [] (mkRowEnv vars tup) hg (by
    intro v hv
    rcases hv with h | h
    · exact mkRowEnv_lookup vars tup hlen v h
    · simp at h)
  obtain ⟨p, hp⟩ := reqCols_ok env' reqs (by
    intro r hr
    apply henv'
    rcases hreq r hr with h | h
    · exact Or.inl h
    · exact Or.inr (Or.inr h))
  refine ⟨(rowVarPart (mkRowEnv vars tup) ++ "  " ++ p.1, p.2), ?_⟩
  simp only [rowOf, hres, hp, Except.map]

/-- A validated `show`/`show_ones` instruction runs to completion. -/
theorem showTable_ok (vars : List String) (ids : List (String × Node)) (reqs : List String)
    (so : Bool) (hg : GoodIds vars [] ids)
    (hreq : ∀ t ∈ reqs, t ∈ vars ∨ t ∈ ids.map Prod.fst) :
    (showTable vars ids reqs so).2 = none := by
  have h : ∀ tup ∈ boolProduct vars.length, (rowOf vars ids reqs tup).isOk = true := by
    intro tup htup
    obtain ⟨p, hp⟩ := rowOf_ok vars ids reqs hg hreq tup (boolProduct_mem_length htup)
    rw [hp]
    rfl
  rw [showTable]
  rw [showGo_char vars ids reqs so (boolProduct vars.length) h]

/-! ## Validated programs execute without internal errors -/

theorem takeWhile_ne_semi (l : List String) (h : ";" ∉ l) :
    l.takeWhile (fun x => !decide (x = ";")) = l := by
  induction l with
  | nil => rfl
  | cons t ts ih =>
    have ht : t ≠ ";" := fun he => h (by simp [he])
    have htail : ";" ∉ ts := fun hm => h (List.mem_cons_of_mem _ hm)
    simp only [List.takeWhile_cons]
    rw [if_pos (by simp [ht]), ih htail]

theorem processVarDecl_ok_shape :
    ∀ (names dv di dv' : List String),
      processVarDecl names dv di = .ok dv' →
      dv' = dv ++ names ∧ ∀ t ∈ names, t ∉ reservedList := by
  intro names
  induction names with
  | nil =>
    intro dv di dv' h
    simp only [processVarDecl, Except.ok.injEq] at h
    exact ⟨by simp [← h], by simp⟩
  | cons t ts ih =>
    intro dv di dv' h
    by_cases h1 : t ∈ dv ∨ t ∈ di
    · simp [processVarDecl, h1] at h
    · by_cases h2 : t ∈ reservedList
      · simp [processVarDecl, h1, h2] at h
      · by_cases h3 : 64 < dv.length + 1
        · simp [processVarDecl, h1, h2, h3] at h
        · rw [show processVarDecl (t :: ts) dv di = processVarDecl ts (dv ++ [t]) di from by
            simp [processVarDecl, h1, h2, h3]] at h
          obtain ⟨hsh, hres⟩ := ih (dv ++ [t]) di dv' h
          refine ⟨by simp [hsh], ?_⟩
          intro x hx
          rcases List.mem_cons.mp hx with he | he
          · subst he; exact h2
          · exact hres x he

theorem checkShowArgs_ok :
    ∀ (args dv di : List String), checkShowArgs args dv di = .ok () →
      ∀ t ∈ args, t ∈ di ∨ t ∈ dv := by
  intro args
  induction args with
  | nil => intro dv di _ t ht; simp at ht
  | cons a as ih =>
    intro dv di h t ht
    by_cases hc : (a ∉ di ∧ a ∉ dv) ∨ a ∈ displayForbidden
    · simp [checkShowArgs, hc] at h
    · have h' : checkShowArgs as dv di = .ok () := by
        simpa [checkShowArgs, hc] using h
      rcases List.mem_cons.mp ht with he | he
      · subst he
        rcases not_and_or.mp (not_or.mp hc).1 with hx | hx
        · exact Or.inl (not_not.mp hx)
        · exact Or.inr (not_not.mp hx)
      · exact ih dv di h' t he

theorem splitAux_no_semi_mem :
    ∀ (toks buffer : List String), ";" ∉ buffer →
      ∀ instr ∈ splitAux toks buffer, ";" ∉ instr := by
  intro toks
  induction toks with
  | nil => intro buffer _ instr hi; simp [splitAux] at hi
  | cons t ts ih =>
    intro buffer hb instr hi
    by_cases ht : t = ";"
    · simp only [splitAux, if_pos ht] at hi
      rcases List.mem_cons.mp hi with he | he
      · subst he; exact hb
      · exact ih [] (by simp) instr he
    · simp only [splitAux, if_neg ht] at hi
      refine ih (buffer ++ [t]) ?_ instr hi
      intro hm
      rcases List.mem_append.mp hm with h | h
      · exact hb h
      · exact ht (List.mem_singleton.mp h).symm

/-- Every instruction list produced during a compile has an assignment-shaped
instruction only with a left-hand name outside the operator words and `=`;
this is the amendment hypothesis of C10 (the validator does not itself
enforce it). -/
def AssignsOpFree (instrs : List (List String)) : Prop :=
  ∀ instr ∈ instrs, instr.getD 1 "" = "=" →
    instr.headD "" ∉ (["and", "or", "not", "="] : List String)

instance (instrs : List (List String)) : Decidable (AssignsOpFree instrs) := by
  unfold AssignsOpFree
  infer_instance

/-- The synchronised induction over the instruction list: if validation
succeeds from a state matching the execution state (same variables, the
identifier names of the trees built so far, all trees well formed over the
names in scope when they were built), execution produces no error. -/
theorem exec_no_error :
    ∀ (instrs : List (List String)) (vars : List String) (ids : List (String × Node)),
      checkLoop instrs vars (ids.map Prod.fst) = .ok () →
      (∀ t ∈ vars, t ∉ reservedList) →
      (∀ t ∈ ids.map Prod.fst, t ∉ (["and", "or", "not", "="] : List String)) →
      GoodIds vars [] ids →
      (∀ instr ∈ instrs, ";" ∉ instr) →
      AssignsOpFree instrs →
      (execLoop instrs vars ids).2 = none := by
  intro instrs
  induction instrs with
  | nil =>
    intro vars ids _ _ _ _ _ _
    rfl
  | cons instr rest ih =>
    intro vars ids hchk hrf hidok hg hsemi hof
    have hsemi0 := hsemi instr (List.mem_cons_self _ _)
    have hsemi' : ∀ i ∈ rest, ";" ∉ i := fun i hi => hsemi i (List.mem_cons_of_mem _ hi)
    have hof' : AssignsOpFree rest := fun i hi h => hof i (List.mem_cons_of_mem _ hi) h
    have hnv : NoOpNames vars :=
      ⟨fun h => hrf "and" h (by decide), fun h => hrf "or" h (by decide),
        fun h => hrf "not" h (by decide)⟩
    have hni : NoOpNames (ids.map Prod.fst) :=
      ⟨fun h => hidok "and" h (by decide), fun h => hidok "or" h (by decide),
        fun h => hidok "not" h (by decide)⟩
    by_cases hlen : instr.length < 2
    · simp [checkLoop, hlen] at hchk
    · cases instr with
      | nil => exact absurd (by simp) hlen
      | cons i0 irest =>
        cases irest with
        | nil => exact absurd (by simp) hlen
        | cons i1 irest2 =>
          by_cases hvar : i0 = "var"
          · subst hvar
            rw [show checkLoop (("var" :: i1 :: irest2) :: rest) vars (ids.map Prod.fst) =
                (match processVarDecl (i1 :: irest2) vars (ids.map Prod.fst) with
                 | .error e => .error e
                 | .ok dv' => checkLoop rest dv' (ids.map Prod.fst)) from by
              simp [checkLoop, hlen]] at hchk
            cases hpd : processVarDecl (i1 :: irest2) vars (ids.map Prod.fst) with
            | error e => rw [hpd] at hchk; simp at hchk
            | ok dv' =>
              rw [hpd] at hchk
              obtain ⟨hdv', hres⟩ := processVarDecl_ok_shape _ _ _ _ hpd
              subst hdv'
              have htw : (i1 :: irest2).takeWhile (fun x => !decide (x = ";")) =
                  i1 :: irest2 :=
                takeWhile_ne_semi _ (fun h => hsemi0 (List.mem_cons_of_mem _ h))
              rw [show (execLoop (("var" :: i1 :: irest2) :: rest) vars ids).2 =
                  (execLoop rest (vars ++ (i1 :: irest2)) ids).2 from by
                simp [execLoop, htw]]
              refine ih (vars ++ (i1 :: irest2)) ids hchk ?_ hidok ?_ hsemi' hof'
              · intro t ht
                rcases List.mem_append.mp ht with h | h
                · exact hrf t h
                · exact hres t h
              · exact GoodIds_mono_vars (fun v hv => List.mem_append_left _ hv) ids [] hg
          · by_cases heq : i1 = "="
            · subst heq
              cases irest2 with
              | nil =>
                exfalso
                by_cases hshow : i0 = "show" ∨ i0 = "show_ones"
                · have hx1 : ("=" : String) ∉ ids.map Prod.fst :=
                    fun h => hidok "=" h (by decide)
                  have hx2 : ("=" : String) ∉ vars := fun h => hrf "=" h (by decide)
                  simp [checkLoop, hvar, hshow, checkShowArgs, displayForbidden,
                    hx1, hx2] at hchk
                · simp [checkLoop, hvar, hshow] at hchk
              | cons a2 irest3 =>
                have hlen3 : 3 ≤ (i0 :: "=" :: a2 :: irest3).length := by simp
                rw [show checkLoop ((i0 :: "=" :: a2 :: irest3) :: rest) vars
                      (ids.map Prod.fst) =
                    (if i0 ∈ vars ∨ i0 ∈ ids.map Prod.fst then
                        .error (.duplicateName i0)
                      else
                        match check_valid_recursively (a2 :: irest3) vars
                            (ids.map Prod.fst) with
                        | .error e => .error e
                        | .ok _ => checkLoop rest vars (ids.map Prod.fst ++ [i0]))
                    from by simp [checkLoop, hvar, hlen3]] at hchk
                by_cases hdup : i0 ∈ vars ∨ i0 ∈ ids.map Prod.fst
                · rw [if_pos hdup] at hchk; simp at hchk
                · rw [if_neg hdup] at hchk
                  cases hcv : check_valid_recursively (a2 :: irest3) vars
                      (ids.map Prod.fst) with
                  | error e => rw [hcv] at hchk; simp at hchk
                  | ok u =>
                    cases u
                    rw [hcv] at hchk
                    obtain ⟨t, hbt, hwt⟩ := check_build_top vars (ids.map Prod.fst)
                      hnv hni (a2 :: irest3) (by simp) hcv
                    have hd1 : i0 ∉ vars := fun h => hdup (Or.inl h)
                    have hd2 : i0 ∉ ids.map Prod.fst := fun h => hdup (Or.inr h)
                    rw [show (execLoop ((i0 :: "=" :: a2 :: irest3) :: rest) vars ids).2 =
                        (execLoop rest vars (ids ++ [(i0, t)])).2 from by
                      simp [execLoop, hvar, hd1, hd2, hbt]]
                    refine ih vars (ids ++ [(i0, t)]) ?_ hrf ?_ ?_ hsemi' hof'
                    · rw [List.map_append]
                      exact hchk
                    · intro x hx
                      rw [List.map_append] at hx
                      rcases List.mem_append.mp hx with h | h
                      · exact hidok x h
                      · have hxe : x = i0 := by simpa using h
                        subst hxe
                        exact hof (x :: "=" :: a2 :: irest3) (List.mem_cons_self _ _)
                          (by simp)
                    · refine GoodIds_snoc vars ids [] (i0, t) hg ?_
                      simpa using hwt
            · by_cases hshow : i0 = "show" ∨ i0 = "show_ones"
              · rw [show checkLoop ((i0 :: i1 :: irest2) :: rest) vars (ids.map Prod.fst) =
                    (match checkShowArgs (i1 :: irest2) vars (ids.map Prod.fst) with
                     | .error e => .error e
                     | .ok _ => checkLoop rest vars (ids.map Prod.fst)) from by
                  simp [checkLoop, hlen, hvar, heq, hshow]] at hchk
                cases hsa : checkShowArgs (i1 :: irest2) vars (ids.map Prod.fst) with
                | error e => rw [hsa] at hchk; simp at hchk
                | ok u =>
                  cases u
                  rw [hsa] at hchk
                  have hargs := checkShowArgs_ok _ _ _ hsa
                  have hst : (showTable vars ids (i1 :: irest2)
                      (decide (i0 = "show_ones"))).2 = none :=
                    showTable_ok vars ids (i1 :: irest2) _ hg
                      (fun x hx => (hargs x hx).symm)
                  rw [show (execLoop ((i0 :: i1 :: irest2) :: rest) vars ids).2 =
                      (execLoop rest vars ids).2 from by
                    simp [execLoop, hvar, heq, hshow, hst]]
                  exact ih vars ids hchk hrf hidok hg hsemi' hof'
              · simp [checkLoop, hlen, hvar, heq, hshow] at hchk

end BC

namespace BC

/-! ## Claims -/

/-- C6: during validation of a declaration, (i) declaring at most 64 distinct,
fresh, non-reserved names in total succeeds and appends the names in order;
(ii) with the running variable list within its 64-entry bound, a batch of
fresh names that would bring the total to 65 or more fails with
`TooManyVariables` (the check fires when the 65th name is appended);
(iii) a name already declared as a variable or identifier (or repeated in the
same declaration) fails with `DuplicateName`; (iv) a reserved word fails with
the invalid-variable-name error (`ReservedName`). -/
theorem C6_declarations :
    (∀ dv di names, FreshNames dv di names → dv.length + names.length ≤ 64 →
        processVarDecl names dv di = .ok (dv ++ names))
      ∧ (∀ dv di names, FreshNames dv di names → dv.length ≤ 64 →
          65 ≤ dv.length + names.length →
          processVarDecl names dv di = .error .tooManyVariables)
      ∧ (∀ (dv di good : List String) (d : String) (rest : List String),
          FreshNames dv di good → dv.length + good.length ≤ 64 →
          (d ∈ dv ∨ d ∈ di ∨ d ∈ good) →
          processVarDecl (good ++ d :: rest) dv di = .error (.duplicateName d))
      ∧ (∀ (dv di good : List String) (d : String) (rest : List String),
          FreshNames dv di good → dv.length + good.length ≤ 64 →
          d ∉ dv → d ∉ di → d ∉ good → d ∈ reservedList →
          processVarDecl (good ++ d :: rest) dv di = .error (.reservedName d)) := by
  refine ⟨?_, ?_, ?_, ?_⟩
  · intro dv di names hf hb
    rw [show names = names ++ [] by simp] at hf ⊢
    rw [processVarDecl_append di names dv [] (by simpa using hf) (by simpa using hb)]
    simp [processVarDecl]
  · intro dv di names hf hdv h65
    exact processVarDecl_overflow di names dv hf hdv h65
  · intro dv di good d rest hf hb hd
    rw [processVarDecl_append di good dv (d :: rest) hf hb]
    have hdup : d ∈ dv ++ good ∨ d ∈ di := by
      rcases hd with h | h | h
      · exact Or.inl (List.mem_append_left good h)
      · exact Or.inr h
      · exact Or.inl (List.mem_append_right dv h)
    simp only [processVarDecl, if_pos hdup]
  · intro dv di good d rest hf hb h1 h2 h3 h4
    rw [processVarDecl_append di good dv (d :: rest) hf hb]
    have hdup : ¬(d ∈ dv ++ good ∨ d ∈ di) := by
      rintro (h | h)
      · rcases List.mem_append.mp h with h | h
        · exact h1 h
        · exact h3 h
      · exact h2 h
    simp only [processVarDecl, if_neg hdup, if_pos h4]

/-- Witness for `C6_declarations`: a successful two-name declaration, a
65-name declaration overflowing the cap, a duplicate, and a reserved word. -/
theorem C6_declarations_witness :
    processVarDecl ["a", "b"] ["x"] ["i"] = .ok ["x", "a", "b"]
      ∧ processVarDecl ((List.range 65).map (fun k => "v" ++ toString k)) [] [] =
          .error .tooManyVariables
      ∧ processVarDecl ["a", "x", "c"] ["x"] [] = .error (.duplicateName "x")
      ∧ processVarDecl ["a", "not", "c"] ["x"] [] = .error (.reservedName "not") :=
  ⟨C6_declarations.1 ["x"] ["i"] ["a", "b"] (by decide) (by decide),
    C6_declarations.2.1 [] [] _ (by decide) (by decide) (by decide),
    C6_declarations.2.2.1 ["x"] [] ["a"] "x" ["c"] (by decide) (by decide) (by decide),
    C6_declarations.2.2.2 ["x"] [] ["a"] "not" ["c"] (by decide) (by decide) (by decide)
      (by decide) (by decide) (by decide)⟩

/-- Modelled from the spec: the fragment of the grammar production
`operand := NAME | 'True' | 'False' | 'not' operand | '(' bool_expr ')'`
exercised by the claim — a declared name or literal is an operand, and `'not'
operand` is again an operand, so iterated unary forms such as `not not x` are
operands of the spec grammar. -/
inductive SpecOperand (dv di : List String) : List String → Prop where
  | name (t : String) : (t ∈ dv ∨ t ∈ di ∨ t = "True" ∨ t = "False") →
      SpecOperand dv di [t]
  | nott (e : List String) : SpecOperand dv di e → SpecOperand dv di ("not" :: e)

/-- C2 counterexample: `not not x` is an operand of the spec grammar (via the
`'not' operand` production, a single connective kind), but the validator
rejects it: the second `not` arrives with the scanner in the after-unary
state (`running == 2`), not the expression-start state `-1` the `not` branch
requires, so validation fails with `Invalid syntax` rather than
succeeding. -/
theorem C2_counterexample :
    SpecOperand ["x"] [] ["not", "not", "x"]
      ∧ check_valid_recursively ["not", "not", "x"] ["x"] [] = .error .invalidSyntax
      ∧ check_valid_recursively ["not", "not", "x"] ["x"] [] ≠ .ok () :=
  ⟨.nott _ (.nott _ (.name "x" (Or.inl (by simp)))), by decide, by decide⟩

/-- C2 (amended): for every right-hand side generated by the balanced grammar
`expr := operand | 'not' operand | operand ('and' operand)+ |
operand ('or' operand)+`, `operand := NAME | 'True' | 'False' | '(' expr ')'`
— i.e. a single connective kind per flat parenthesis level with `not`
permitted only as the leading token of a level applied to one operand, so
nested unary forms need parentheses (`not (not x)` validates, `not not x`
does not) — validation succeeds, provided no declared name is itself one of
the operator words; and `x and y or z` (mixed `and`/`or` at one flat level)
fails with `OperatorConflict`. -/
theorem C2_amended_valid (dv di e : List String) (hdv : NoOpNames dv) (hdi : NoOpNames di)
    (hg : G dv di .expr e) :
    check_valid_recursively e dv di = .ok ()
      ∧ check_valid_recursively ["x", "and", "y", "or", "z"] ["x", "y", "z"] [] =
          .error .operatorConflict :=
  ⟨check_valid_of_G dv di e hdv hdi hg, by decide⟩

/-- Witness for `C2_amended_valid`: the nested unary form with parentheses,
`not (not x)`, validates over the declared variable `x`. -/
theorem C2_amended_valid_witness :
    check_valid_recursively ["not", "(", "not", "x", ")"] ["x"] [] = .ok ()
      ∧ check_valid_recursively ["x", "and", "y", "or", "z"] ["x", "y", "z"] [] =
          .error .operatorConflict :=
  C2_amended_valid ["x"] [] ["not", "(", "not", "x", ")"] (by decide) (by decide)
    (G.nott _ (G.paren ["not", "x"]
      (G.nott _ (G.atom "x" (by decide) (by decide) (Or.inl (by simp))))))

/-- C3 counterexample: on the input `var x y; z = x and y; show x y z;` the
compiler prints the header `# x y   x y z` (the variables followed by all
three requested names), not the header `# x y   z` stated in the claim. -/
theorem C3_counterexample :
    (compile ("var x y; z = x and y; show x y z;".toList)).1.headD "" = "# x y   x y z"
      ∧ "# x y   x y z" ≠ "# x y   z"
      ∧ (compile ("var x y; z = x and y; show x y z;".toList)).1.length = 5 := by
  decide

/-- C3 (amended): compiling `var x y; z = x and y; show x y z;` prints exactly
the header `# x y   x y z` followed by the 4 rows `  0 0   0 0 0`,
`  0 1   0 1 0`, `  1 0   1 0 0`, `  1 1   1 1 1`, in that order, with no
error. -/
theorem C3_end_to_end :
    compile ("var x y; z = x and y; show x y z;".toList) =
      (["# x y   x y z", "  0 0   0 0 0", "  0 1   0 1 0", "  1 0   1 0 0", "  1 1   1 1 1"],
        none) := by
  decide

/-- C5: compilation is fail-fast and all-or-nothing.  A lexing error aborts
compilation with no output; a validation error (validation runs over all
instructions before any instruction is executed) aborts compilation with no
output; and the concrete malformed input `var x; y = x and;` (dangling
connective) fails with the `Invalid assignment` error before anything is
printed.  (The splitting phase is total and cannot fail.) -/
theorem C5_fail_fast :
    (∀ s e, tokenize s = .error e → compile s = ([], some e))
      ∧ (∀ s toks e, tokenize s = .ok toks →
          check_instructions (splitInstructions toks) = .error e → compile s = ([], some e))
      ∧ compile ("var x; y = x and;".toList) = ([], some .invalidAssignment) := by
  refine ⟨?_, ?_, by decide⟩
  · intro s e h
    simp [compile, h]
  · intro s toks e h1 h2
    simp [compile, h1, h2]

/-- Witness for `C5_fail_fast`: instantiates the two implications on concrete
failing inputs (a digit-led word for the lexer, an instruction with fewer than
two tokens for the validator). -/
theorem C5_fail_fast_witness :
    compile ("var 1;".toList) = ([], some .lexDigit)
      ∧ compile ("x;".toList) = ([], some .invalidInstruction) :=
  ⟨C5_fail_fast.1 _ _ (by decide),
    C5_fail_fast.2.1 _ ["x", ";"] _ (by decide) (by decide)⟩

/-- C7 counterexample: the final instruction of `var x; show x` (tokens
`var x ; show x`, no terminating `;`) is dropped by the instruction splitter:
it is neither validated nor executed, and compiling the program prints
nothing at all (the claim states the `show` would still run). -/
theorem C7_counterexample :
    compile ("var x; show x".toList) = ([], none)
      ∧ splitInstructions ["var", "x", ";", "show", "x"] = [["var", "x"]]
      ∧ ["show", "x"] ∉ splitInstructions ["var", "x", ";", "show", "x"] := by
  decide

/-- C7 (amended): an instruction segment is emitted only for each `;`
encountered; the trailing fragment after the last `;` — empty or not — is
silently dropped by the splitter, so a final instruction not followed by a
terminating `;` is neither validated nor executed. -/
theorem C7_amended (xs ys : List String) (h : ";" ∉ ys) :
    splitInstructions (xs ++ ys) = splitInstructions xs :=
  splitAux_append_no_semi h xs []

/-- Witness for `C7_amended`: the trailing fragment `show x` of
`var x ; show x` contributes nothing. -/
theorem C7_amended_witness :
    splitInstructions (["var", "x", ";"] ++ ["show", "x"]) = splitInstructions ["var", "x", ";"] :=
  C7_amended ["var", "x", ";"] ["show", "x"] (by decide)

/-- C8: the lexer merges words across a comment.  `re.sub(r"#.*\n", "", s)`
deletes the comment *including* its terminating newline, so in
`ab#c` newline `cd` the words `ab` and `cd` become adjacent and lex as the
single token `abcd` — the newline does not act as a token separator here,
contradicting the claim (and the spec sentence that whitespace separates
tokens). -/
theorem C8_comment_merges_words :
    stripComments ("ab#c\ncd".toList) = "abcd".toList
      ∧ tokenize ("ab#c\ncd\n".toList) = .ok ["abcd"]
      ∧ (Except.ok ["abcd"] : Except Err (List String)) ≠ .ok ["ab", "cd"] := by
  decide

/-- C9: a `#` comment on the final line not followed by a newline is *not*
discarded (the regex `#.*\n` requires the newline), so the lexer reaches the
`#` character and fails with the invalid-character `LexError`, and the whole
compilation fails — contradicting the claim that such a program lexes
successfully. -/
theorem C9_trailing_comment_lexerror :
    tokenize ("var x; show x; # done".toList) = .error (.lexChar '#')
      ∧ compile ("var x; show x; # done".toList) = ([], some (.lexChar '#'))
      ∧ tokenize ("var x; show x;\n# done\n".toList) = .ok ["var", "x", ";", "show", "x", ";"] := by
  decide

/-- C1: for an unfiltered `show`, the driver prints the header followed by
exactly `2 ^ n` data rows (`n` the number of declared variables), one per
assignment tuple, the `i`-th printed data row coming from the `i`-th tuple of
`itertools.product([False, True], repeat=n)`; the tuples are complete
assignments (length `n`) and are enumerated in lexicographic `(False, True)`
product order with the last variable varying fastest: coordinate `j` of tuple
`i` is bit `n - 1 - j` of `i`.  The hypothesis (every row evaluates without an
internal error) holds for every successfully compiled program, whose `show`
instructions run to completion. -/
theorem C1_truth_table_rows (vars : List String) (ids : List (String × Node))
    (reqs : List String)
    (h : ∀ tup ∈ boolProduct vars.length, (rowOf vars ids reqs tup).isOk = true) :
    (showTable vars ids reqs false).1 =
        headerLine vars reqs :: (boolProduct vars.length).map (rowLineD vars ids reqs)
      ∧ (showTable vars ids reqs false).1.length = 2 ^ vars.length + 1
      ∧ (showTable vars ids reqs false).2 = none
      ∧ (boolProduct vars.length).length = 2 ^ vars.length
      ∧ (∀ tup ∈ boolProduct vars.length, tup.length = vars.length)
      ∧ (∀ i j, i < 2 ^ vars.length → j < vars.length →
          ((boolProduct vars.length).getD i []).getD j false =
            i.testBit (vars.length - 1 - j)) := by
  have hchar := showGo_char_unfiltered vars ids reqs (boolProduct vars.length) h
  refine ⟨?_, ?_, ?_, boolProduct_length _, fun tup ht => boolProduct_mem_length ht,
    fun i j hi hj => boolProduct_getD hi hj⟩
  · simp [showTable, hchar]
  · simp [showTable, hchar, boolProduct_length]
  · simp [showTable, hchar]

/-- Witness for `C1_truth_table_rows`: the program fragment with one variable
`a`, one identifier `b = not a` and the request `show a b` prints the header
and exactly `2 ^ 1 = 2` rows. -/
theorem C1_truth_table_rows_witness :
    (showTable ["a"] [("b", Node.mk "not" [Node.mk "a" []])] ["a", "b"] false).1 =
      ["# a   a b", "  0   0 1", "  1   1 0"] := by
  have h := (C1_truth_table_rows ["a"] [("b", Node.mk "not" [Node.mk "a" []])] ["a", "b"]
    (by decide)).1
  rw [h]
  decide

/-- C4: the rows printed under `show_ones` are exactly the rows of the
unfiltered `show` output on which at least one requested name evaluates to
true: the filtered line list is the unfiltered line list restricted to the
tuples whose `rowTrueD` flag holds, that flag agrees with the `valid_row`
flag computed by the row loop, and it holds exactly when some requested name
is mapped to true after the identifiers are resolved on that row. -/
theorem C4_show_ones_filter (vars : List String) (ids : List (String × Node))
    (reqs : List String)
    (h : ∀ tup ∈ boolProduct vars.length, (rowOf vars ids reqs tup).isOk = true) :
    (showTable vars ids reqs true).1 =
        headerLine vars reqs ::
          ((boolProduct vars.length).filter (fun t => rowTrueD vars ids reqs t)).map
            (rowLineD vars ids reqs)
      ∧ (showTable vars ids reqs false).1 =
          headerLine vars reqs :: (boolProduct vars.length).map (rowLineD vars ids reqs)
      ∧ (showTable vars ids reqs true).2 = none
      ∧ (∀ tup env p, resolveIds ids (mkRowEnv vars tup) = .ok env →
          reqCols reqs env = .ok p →
          rowTrueD vars ids reqs tup = p.2
            ∧ (p.2 = true ↔ ∃ r ∈ reqs, envLookup env r = some true)) := by
  have hchar := showGo_char vars ids reqs true (boolProduct vars.length) h
  have hchar0 := showGo_char_unfiltered vars ids reqs (boolProduct vars.length) h
  have hfun : (fun t => !true || rowTrueD vars ids reqs t) =
      (fun t => rowTrueD vars ids reqs t) := by
    funext t; simp
  refine ⟨?_, by simp [showTable, hchar0], by simp [showTable, hchar], ?_⟩
  · rw [hfun] at hchar
    simp [showTable, hchar]
  · intro tup env p h1 h2
    refine ⟨?_, reqCols_flag reqs env p h2⟩
    simp [rowTrueD, rowOf, h1, h2, Except.map]

/-- Witness for `C4_show_ones_filter`: with `b = not a` and request
`show_ones b`, only the row where `b` is true survives. -/
theorem C4_show_ones_filter_witness :
    (showTable ["a"] [("b", Node.mk "not" [Node.mk "a" []])] ["b"] true).1 =
      ["# a   b", "  0   1"] := by
  have h := (C4_show_ones_filter ["a"] [("b", Node.mk "not" [Node.mk "a" []])] ["b"]
    (by decide)).1
  rw [h]
  decide

/-- C10 (amended): for every program whose tokens pass validation and in
which no assignment left-hand side is one of the operator words `and`, `or`,
`not` or the token `=` (the validator does not reserved-check assignment
left-hand sides, which is what the counterexample exploits), the whole
execution — tree building and every evaluation during truth-table printing —
completes with no internal error: in particular the `MalformedNode` and
`UnboundName` branches of `Node.eval` are never taken.  The `=` exclusion
guards a second validator/executor divergence: after `= = x;`, the validated
display instruction `show =;` is mis-dispatched by the executor as an
assignment and crashes in the tree builder. -/
theorem C10_amended_no_eval_errors (s : List Char) (toks : List String)
    (h1 : tokenize s = .ok toks)
    (h2 : checkLoop (splitInstructions toks) [] [] = .ok ())
    (h3 : AssignsOpFree (splitInstructions toks)) :
    (compile s).2 = none
      ∧ check_instructions (splitInstructions toks) = .ok (splitInstructions toks) := by
  have hnos : ∀ instr ∈ splitInstructions toks, ";" ∉ instr :=
    fun instr hi => splitAux_no_semi_mem toks [] (by simp) instr hi
  have hexec : (execLoop (splitInstructions toks) [] []).2 = none :=
    exec_no_error (splitInstructions toks) [] [] h2 (by simp) (by simp) trivial hnos h3
  have hci : check_instructions (splitInstructions toks) = .ok (splitInstructions toks) := by
    simp [check_instructions, h2, Except.map]
  refine ⟨?_, hci⟩
  rw [show compile s = execLoop (splitInstructions toks) [] [] from by
    simp [compile, h1, hci]]
  exact hexec

/-- Witness for `C10_amended_no_eval_errors`: a full program with two
variables, one identifier and a filtered display compiles with no internal
error. -/
theorem C10_amended_no_eval_errors_witness :
    (compile ("var x y; z = x and y; show_ones x z;".toList)).2 = none
      ∧ check_instructions (splitInstructions
          ["var", "x", "y", ";", "z", "=", "x", "and", "y", ";",
            "show_ones", "x", "z", ";"]) =
        .ok (splitInstructions
          ["var", "x", "y", ";", "z", "=", "x", "and", "y", ";",
            "show_ones", "x", "z", ";"]) :=
  C10_amended_no_eval_errors ("var x y; z = x and y; show_ones x z;".toList)
    ["var", "x", "y", ";", "z", "=", "x", "and", "y", ";", "show_ones", "x", "z", ";"]
    (by decide) (by decide) (by decide)

/-- C10 counterexample: the program `var x; and = x; y = and; show y;` passes
validation (assignment left-hand sides are not reserved-checked, so `and`
becomes a declared identifier, and the validator then treats the token `and`
in `y = and` as an operand), yet executing it builds the childless operator
node `Node('and', [])` for `y`, and evaluating it during truth-table printing
raises the `Invalid number of children` error (`MalformedNode`) after the
header has been printed. -/
theorem C10_counterexample :
    check_instructions (splitInstructions
        ["var", "x", ";", "and", "=", "x", ";", "y", "=", "and", ";", "show", "y", ";"]) =
      .ok [["var", "x"], ["and", "=", "x"], ["y", "=", "and"], ["show", "y"]]
      ∧ compile ("var x; and = x; y = and; show y;".toList) =
          (["# x   y"], some .malformedNode) := by
  decide

end BC
